import Mathlib

/-!
Verification development for the prioritized-replay memory
(`tensorforce/core/memories/prioritized_replay.py`).

The Python module has two classes:

* `SumTree`: an array-backed complete binary tree.  A single Python list
  `_memory` first holds the `capacity - 1` internal nodes (plain numbers,
  initialised to `0`) and then up to `capacity` leaf rows
  (`namedtuple SumRow(item, priority)`, where `priority` may be `None`).
* `PrioritizedReplay`: the replay orchestrator wrapping a `SumTree`.

The embedding below mirrors that layout.  Numeric priorities are modelled by
`ℚ` (the Python code uses floats; all properties checked here are exact
arithmetic/structural ones).  A Python `x or 0` on an optional priority is
`Option.getD · 0`.  Python exceptions are modelled by explicit error values;
a raised exception leaves the object in its partially-mutated state, which the
operations below return alongside the error.
-/

/-- The errors the Python code can raise on the paths modelled here:
`TensorForceError` with the capacity-exhaustion message, the two
`update_batch` messages, the `RuntimeError('Right child is expected to
exist.')` in `_sample_with_priority`, and untyped Python `TypeError` /
`IndexError` / `ZeroDivisionError` failures. -/
inductive PyErr where
  | tfCapacity
  | tfMissingContext
  | tfMismatch
  | runtimeError
  | typeError
  | indexError
  | zeroDivisionError
  deriving DecidableEq, Repr

/-- `SumRow = namedtuple('SumRow', ['item', 'priority'])`; `priority` may be
Python `None`. -/
structure SumRow (α : Type) where
  item : α
  priority : Option ℚ
  deriving DecidableEq, Repr

/-- One entry of `SumTree._memory`: an internal node holds a plain number,
a leaf position holds a `SumRow`, and `pyNone` is the `None` placeholder the
code appends right before overwriting it. -/
inductive Cell (α : Type) where
  | num (v : ℚ)
  | row (sr : SumRow α)
  | pyNone
  deriving DecidableEq, Repr

namespace Cell

def isNum : Cell α → Bool
  | .num _ => true
  | _ => false

def isRow : Cell α → Bool
  | .row _ => true
  | _ => false

/-- The numeric value a cell contributes to priority sums: an internal node's
stored number, a leaf's priority with `None` counting as `0`. -/
def cellVal : Cell α → ℚ
  | .num v => v
  | .row sr => sr.priority.getD 0
  | .pyNone => 0

end Cell

/-- The value at index `i` of a memory list (out-of-range reads as `0`; the
code never reads out of range on the paths we prove about). -/
def nodeVal (m : List (Cell α)) (i : ℕ) : ℚ :=
  (m.getD i .pyNone).cellVal

/-- `self._memory[index] += delta` for an internal node.  A non-numeric cell
is returned unchanged (in Python that line would raise; it is unreachable
because the ancestor chain of any index lies in the internal-node prefix). -/
def bumpAt (m : List (Cell α)) (j : ℕ) (δ : ℚ) : List (Cell α) :=
  match m.getD j .pyNone with
  | .num v => m.set j (.num (v + δ))
  | _ => m

/-- The loop body of `SumTree._update_internal_nodes`:
`while index > 0: index = (index - 1) // 2; self._memory[index] += delta`.
The first argument is fuel; the loop runs at most `index` times because the
index strictly decreases, so fuel `index` is always enough (every lemma below
carries the invariant `index ≤ fuel`). -/
def updateGo (δ : ℚ) : ℕ → ℕ → List (Cell α) → List (Cell α)
  | _, 0, m => m
  | 0, _ + 1, m => m
  | fuel + 1, index + 1, m => updateGo δ fuel (index / 2) (bumpAt m (index / 2) δ)

/-- `SumTree._update_internal_nodes(index, delta)`. -/
def updateInternalNodes (m : List (Cell α)) (index : ℕ) (δ : ℚ) : List (Cell α) :=
  updateGo δ index index m

/-- The list of indices visited by the `_update_internal_nodes` loop (the
proper ancestors of `index`, from parent up to the root), with the same fuel
convention as `updateGo`. -/
def chainGo : ℕ → ℕ → List ℕ
  | _, 0 => []
  | 0, _ + 1 => []
  | fuel + 1, index + 1 => (index / 2) :: chainGo fuel (index / 2)

/-- `class SumTree`: `_capacity`, the single `_memory` list, and the wrapping
write cursor `_position`.  (`_actual_capacity = 2 * capacity - 1` is stored by
`__init__` but never used afterwards, so it is not modelled.) -/
structure SumTree (α : Type) where
  capacity : ℕ
  memory : List (Cell α)
  position : ℕ
  deriving DecidableEq, Repr

namespace SumTree

/-- `SumTree.__init__`: `capacity - 1` internal nodes initialised to `0`,
cursor at `0`. -/
def init (α : Type) (capacity : ℕ) : SumTree α :=
  ⟨capacity, List.replicate (capacity - 1) (.num 0), 0⟩

/-- `SumTree.__len__`: `len(self._memory) - (self._capacity - 1)`. -/
def len (t : SumTree α) : ℕ :=
  t.memory.length - (t.capacity - 1)

/-- `SumTree._isfull`: `len(self) == self._capacity`. -/
def isFull (t : SumTree α) : Bool :=
  t.len == t.capacity

/-- `SumTree._next_position_then_increment`: returns the physical leaf index
for the current cursor and advances the cursor modulo capacity. -/
def nextPositionThenIncrement (t : SumTree α) : ℕ × SumTree α :=
  ((t.capacity - 1) + t.position,
   ⟨t.capacity, t.memory, (t.position + 1) % t.capacity⟩)

/-- The `old_priority` read in `SumTree.put`:
`0 if self._memory[position] is None else (self._memory[position].priority or 0)`.
(The `num` and out-of-range cases would raise in Python; they are unreachable
because `put` always targets the leaf region.) -/
def oldPriorityAt (m : List (Cell α)) (position : ℕ) : ℚ :=
  match m.getD position .pyNone with
  | .pyNone => 0
  | .row sr => sr.priority.getD 0
  | .num _ => 0

/-- `SumTree.put(item, priority)`: append a `None` slot when not yet full,
take the cursor's leaf index, overwrite it with `SumRow(item, priority)`, and
propagate `(priority or 0) - old_priority` through the ancestors. -/
def put (t : SumTree α) (item : α) (priority : Option ℚ) : SumTree α :=
  let t0 : SumTree α :=
    if t.isFull then t else ⟨t.capacity, t.memory ++ [.pyNone], t.position⟩
  let pt := t0.nextPositionThenIncrement
  let oldPriority := oldPriorityAt pt.2.memory pt.1
  let m1 := pt.2.memory.set pt.1 (.row ⟨item, priority⟩)
  let m2 := updateInternalNodes m1 pt.1 (priority.getD 0 - oldPriority)
  ⟨pt.2.capacity, m2, pt.2.position⟩

/-- `SumTree._move(index, new_priority)`: re-write the leaf row at a physical
index with the new priority and propagate the delta.  A non-row cell is left
unchanged (Python would raise on unpacking it; the claims below only invoke
`_move` on populated leaves). -/
def moveIdx (t : SumTree α) (index : ℕ) (newPriority : ℚ) : SumTree α :=
  match t.memory.getD index .pyNone with
  | .row sr =>
      let m1 := t.memory.set index (.row ⟨sr.item, some newPriority⟩)
      ⟨t.capacity, updateInternalNodes m1 index (newPriority - sr.priority.getD 0),
       t.position⟩
  | _ => t

/-- `SumTree.move(external_index, new_priority)`:
`self._move(external_index + (self._capacity - 1), new_priority)`. -/
def move (t : SumTree α) (externalIndex : ℕ) (newPriority : ℚ) : SumTree α :=
  t.moveIdx (externalIndex + (t.capacity - 1)) newPriority

/-- The item stored at external leaf position `j` (if that slot holds a row). -/
def leafItem (t : SumTree α) (j : ℕ) : Option α :=
  match t.memory.getD (t.capacity - 1 + j) .pyNone with
  | .row sr => some sr.item
  | _ => none

end SumTree

/-! ### Sampling -/

namespace SumTree

/-- The `left_p` read in `_sample_with_priority`:
`self._memory[left] if left < self._capacity - 1 else (self._memory[left].priority or 0)`.
(The fall-through `0` cases are unreachable on the paths proved about: an
internal index always holds a number and an in-range leaf index a row.) -/
def leftP (m : List (Cell α)) (capacity left : ℕ) : ℚ :=
  if left < capacity - 1 then
    match m.getD left .pyNone with
    | .num v => v
    | _ => 0
  else
    match m.getD left .pyNone with
    | .row sr => sr.priority.getD 0
    | _ => 0

/-- The descent loop of `SumTree._sample_with_priority(p)`.  The first
argument is fuel: `parent` strictly increases each iteration and the loop
stops once `2*parent+1 ≥ len(memory)`, so `memory.length` iterations always
suffice; at exhausted fuel (only reachable when `parent ≥ memory.length`,
where the loop would stop anyway) the current `parent` is returned. -/
def sampleGo (m : List (Cell α)) (capacity : ℕ) : ℕ → ℚ → ℕ → Except PyErr ℕ
  | 0, _, parent => .ok parent
  | fuel + 1, p, parent =>
      let left := 2 * parent + 1
      if m.length ≤ left then .ok parent
      else if p ≤ leftP m capacity left then sampleGo m capacity fuel p left
      else if m.length ≤ left + 1 then .error .runtimeError
      else sampleGo m capacity fuel (p - leftP m capacity left) (left + 1)

/-- `SumTree._sample_with_priority(p)`: descend from the root. -/
def sampleWithPriority (t : SumTree α) (p : ℚ) : Except PyErr ℕ :=
  sampleGo t.memory t.capacity t.memory.length p 0

/-- `SumTree.sample_minibatch(batch_size)`.  After the empty-pool check the
code computes `delta_p = self._memory[0] / batch_size`: indexing an empty
list raises `IndexError`, dividing a non-number (with capacity 1, slot `0`
is the leaf `SumRow`, not an internal sum) raises `TypeError`, and a number
divided by `batch_size = 0` raises `ZeroDivisionError`.  The stratified
random draws `random.uniform(lower, upper)` are supplied from outside
through `ps` (the `i`-th draw is `ps.getD i 0`); theorems about sampling
constrain them to the interval the code draws from. -/
def sampleMinibatch (t : SumTree α) (batchSize : ℕ) (ps : List ℚ) :
    Except PyErr (List (ℕ × Cell α)) :=
  if t.len = 0 then .ok []
  else
    match t.memory.getD 0 .pyNone with
    | .pyNone => .error .indexError
    | .row _ => .error .typeError
    | .num _ =>
        if batchSize = 0 then .error .zeroDivisionError
        else do
          let idxs ← (List.range batchSize).mapM
            (fun i => sampleGo t.memory t.capacity t.memory.length (ps.getD i 0) 0)
          pure (idxs.map (fun i => (i, t.memory.getD i .pyNone)))

/-- The interval constraint `random.uniform(lower, upper)` puts on the `i`-th
stratified draw in `sample_minibatch`, with
`delta_p = self._memory[0] / batch_size`, `lower = max(i * delta_p, 0)` and
`upper = min((i + 1) * delta_p, self._memory[0])`. -/
def DrawsValid (t : SumTree α) (batchSize : ℕ) (ps : List ℚ) : Prop :=
  ∀ i, i < batchSize →
    max ((i : ℚ) * (nodeVal t.memory 0 / (batchSize : ℚ))) 0 ≤ ps.getD i 0 ∧
    ps.getD i 0 ≤ min (((i : ℚ) + 1) * (nodeVal t.memory 0 / (batchSize : ℚ)))
      (nodeVal t.memory 0)

end SumTree

/-! ### The replay orchestrator -/

/-- One observation as passed to `add_observation`:
`(state, action, reward, terminal, internal)`.  State, action and the entries
of the `internal` list are opaque; `internal` itself may be Python `None`. -/
structure Obs5 (S A I : Type) where
  state : S
  action : A
  reward : ℚ
  terminal : Bool
  internal : Option (List I)
  deriving DecidableEq, Repr

/-- A completed transition, `self.last_observation + (state, internal)`:
`(state, action, reward, terminal, internal, next_state, next_internal)`. -/
structure Transition (S A I : Type) where
  state : S
  action : A
  reward : ℚ
  terminal : Bool
  internal : Option (List I)
  next_state : S
  next_internal : Option (List I)
  deriving DecidableEq, Repr

/-- `observation = self.last_observation + (state, internal)`. -/
def mkTrans (w : Obs5 S A I) (state : S) (internal : Option (List I)) : Transition S A I :=
  ⟨w.state, w.action, w.reward, w.terminal, w.internal, state, internal⟩

/-- `class PrioritizedReplay`.  The `states_config`/`actions_config` schema
descriptors are consumed only to allocate output arrays of matching shape and
are not modelled; `internals_config` (`None` until the first observation with
a non-`None` internal list arrives, then `[(i.shape, i.dtype) for i in
internal]`) is modelled by the retained internal list itself, standing in for
the extracted shape/dtype pairs.  `prioritization_weight` is the exponent of
`loss ** prioritization_weight`, modelled as a natural number. -/
structure PrioritizedReplay (S A I : Type) where
  prioritization_weight : ℕ
  internals_config : Option (List I)
  batch_indices : Option (List ℕ)
  observations : SumTree (Transition S A I)
  none_priority_index : ℤ
  last_observation : Option (Obs5 S A I)
  deriving DecidableEq, Repr

namespace PrioritizedReplay

/-- `PrioritizedReplay.__init__`. -/
def initReplay (S A I : Type) (capacity weight : ℕ) : PrioritizedReplay S A I :=
  ⟨weight, none, none, SumTree.init (Transition S A I) capacity, 0, none⟩

/-- `PrioritizedReplay.add_observation(state, action, reward, terminal,
internal)`.  Returns the object state after the call together with the raised
error, if any: Python's `raise` aborts the method after the
`internals_config` update but before `self.last_observation` is reassigned. -/
def addObservation (r : PrioritizedReplay S A I) (state : S) (action : A)
    (reward : ℚ) (terminal : Bool) (internal : Option (List I)) :
    PrioritizedReplay S A I × Option PyErr :=
  let ic : Option (List I) :=
    match r.internals_config, internal with
    | none, some l => some l
    | ic0, _ => ic0
  match r.last_observation with
  | none =>
      (⟨r.prioritization_weight, ic, r.batch_indices, r.observations,
        r.none_priority_index, some ⟨state, action, reward, terminal, internal⟩⟩, none)
  | some lo =>
      let observation := mkTrans lo state internal
      if r.observations.isFull then
        if r.none_priority_index ≤ 0 then
          (⟨r.prioritization_weight, ic, r.batch_indices, r.observations,
            r.none_priority_index, r.last_observation⟩, some .tfCapacity)
        else
          (⟨r.prioritization_weight, ic, r.batch_indices,
            r.observations.put observation none, r.none_priority_index - 1,
            some ⟨state, action, reward, terminal, internal⟩⟩, none)
      else
        (⟨r.prioritization_weight, ic, r.batch_indices,
          r.observations.put observation none, r.none_priority_index,
          some ⟨state, action, reward, terminal, internal⟩⟩, none)

/-- The materialization loop of `get_batch`: for each retained index, unpack
`observation, _ = self._memory[index]` and copy the observation's fields into
the output arrays.  Unpacking a non-row cell raises `TypeError`; an
out-of-range index raises `IndexError`.  The output is modelled as the list
of fetched transitions (each already carrying its next-state fields; the
`next_states` flag only selects which of these fields are copied into output
arrays, which is immaterial here). -/
def fetchRows (m : List (Cell α)) (idxs : List ℕ) : Except PyErr (List α) :=
  idxs.mapM (fun i =>
    match m.get? i with
    | some (.row sr) => .ok sr.item
    | some _ => .error .typeError
    | none => .error .indexError)

/-- `PrioritizedReplay.get_batch(batch_size)`.  `ps` supplies the stratified
random draws of `sample_minibatch` and `shuffle` the permutation applied by
`np.random.shuffle`.  Returns the object state after the call and either the
materialized batch or the raised error.  The first step models the output
array allocation: with `internals_config` still `None`, iterating it raises
`TypeError` before any state is touched. -/
def getBatch (r : PrioritizedReplay S A I) (batchSize : ℕ) (ps : List ℚ)
    (shuffle : List ℕ → List ℕ) :
    PrioritizedReplay S A I × Except PyErr (List (Transition S A I)) :=
  match r.internals_config with
  | none => (r, .error .typeError)
  | some _ =>
      let c := r.observations.capacity
      let start := r.none_priority_index.toNat + (c - 1)
      let stop := r.observations.len + (c - 1)
      let unseen := List.range' start (stop - start)
      let bi0 := unseen.take batchSize
      let remaining := batchSize - bi0.length
      if remaining = 0 then
        let bi := shuffle bi0
        match fetchRows r.observations.memory bi with
        | .ok obs =>
            (⟨r.prioritization_weight, r.internals_config, some bi, r.observations,
              r.none_priority_index, r.last_observation⟩, .ok obs)
        | .error e =>
            (⟨r.prioritization_weight, r.internals_config, some bi, r.observations,
              r.none_priority_index, r.last_observation⟩, .error e)
      else
        match r.observations.sampleMinibatch remaining ps with
        | .error e =>
            (⟨r.prioritization_weight, r.internals_config, some bi0, r.observations,
              r.none_priority_index, r.last_observation⟩, .error e)
        | .ok samples =>
            let bi := shuffle (bi0 ++ samples.map (fun s => s.1))
            match fetchRows r.observations.memory bi with
            | .ok obs =>
                (⟨r.prioritization_weight, r.internals_config, some bi,
                  r.observations, r.none_priority_index, r.last_observation⟩, .ok obs)
            | .error e =>
                (⟨r.prioritization_weight, r.internals_config, some bi,
                  r.observations, r.none_priority_index, r.last_observation⟩, .error e)

/-- The loop body of `update_batch`: `self.observations._move(index,
loss ** self.prioritization_weight); self.none_priority_index += 1`. -/
def updateStep (acc : PrioritizedReplay S A I) (p : ℕ × ℚ) : PrioritizedReplay S A I :=
  ⟨acc.prioritization_weight, acc.internals_config, acc.batch_indices,
   acc.observations.moveIdx p.1 (p.2 ^ acc.prioritization_weight),
   acc.none_priority_index + 1, acc.last_observation⟩

/-- `PrioritizedReplay.update_batch(loss_per_instance)`. -/
def updateBatch (r : PrioritizedReplay S A I) (losses : List ℚ) :
    PrioritizedReplay S A I × Option PyErr :=
  match r.batch_indices with
  | none => (r, some .tfMissingContext)
  | some idxs =>
      if losses.length ≠ idxs.length then (r, some .tfMismatch)
      else ((idxs.zip losses).foldl updateStep r, none)

end PrioritizedReplay

/-! ### Decidable equality for `Except` results -/

instance {ε β : Type} [DecidableEq ε] [DecidableEq β] : DecidableEq (Except ε β)
  | .ok a, .ok b => if h : a = b then isTrue (by rw [h]) else isFalse (by simpa using h)
  | .ok _, .error _ => isFalse (by simp)
  | .error _, .ok _ => isFalse (by simp)
  | .error a, .error b => if h : a = b then isTrue (by rw [h]) else isFalse (by simpa using h)

/-! ### The ancestor chain of `_update_internal_nodes` -/

theorem chainGo_zero (f : ℕ) : chainGo f 0 = [] := by
  cases f <;> rfl

theorem chainGo_bound : ∀ f l a, a ∈ chainGo f l → 2 * a + 1 ≤ l := by
  intro f
  induction f with
  | zero => intro l a h; cases l <;> simp [chainGo] at h
  | succ f ih =>
      intro l a h
      cases l with
      | zero => simp [chainGo] at h
      | succ j =>
          simp only [chainGo, List.mem_cons] at h
          rcases h with rfl | h
          · omega
          · have := ih _ _ h
            omega

theorem chainGo_count_children (i : ℕ) :
    ∀ f l, l ≤ f →
      (chainGo f l).count i
        = (l :: chainGo f l).count (2 * i + 1) + (l :: chainGo f l).count (2 * i + 2) := by
  intro f
  induction f with
  | zero =>
      intro l hl
      interval_cases l
      simp [chainGo_zero, List.count_cons]
  | succ f ih =>
      intro l hl
      cases l with
      | zero =>
          simp [chainGo_zero, List.count_cons]
      | succ j =>
          have hj : j / 2 ≤ f := by omega
          have h2 := ih (j / 2) hj
          simp only [chainGo, List.count_cons, beq_iff_eq] at h2 ⊢
          split_ifs at h2 ⊢ <;> omega

theorem chainGo_count_root : ∀ f l, 1 ≤ l → l ≤ f → (chainGo f l).count 0 = 1 := by
  intro f
  induction f with
  | zero => intro l h1 h2; omega
  | succ f ih =>
      intro l h1 h2
      cases l with
      | zero => omega
      | succ j =>
          simp only [chainGo, List.count_cons, beq_iff_eq]
          rcases Nat.eq_zero_or_pos (j / 2) with h | h
          · rw [h, chainGo_zero]
            simp
          · rw [ih (j / 2) h (by omega)]
            have hne : ¬ (j / 2 = 0) := by omega
            simp [hne]

/-! ### Effect of the `_update_internal_nodes` loop on the memory list -/

theorem bumpAt_length (m : List (Cell α)) (j : ℕ) (δ : ℚ) :
    (bumpAt m j δ).length = m.length := by
  unfold bumpAt
  split <;> simp

theorem bumpAt_getD_ne (m : List (Cell α)) {j n : ℕ} (h : j ≠ n) (δ : ℚ) :
    (bumpAt m j δ).getD n .pyNone = m.getD n .pyNone := by
  unfold bumpAt
  split <;> simp [List.getD_eq_getElem?_getD, List.getElem?_set_ne h]

theorem bumpAt_of_not_num {m : List (Cell α)} {j : ℕ}
    (h : (m.getD j .pyNone).isNum = false) (δ : ℚ) : bumpAt m j δ = m := by
  unfold bumpAt
  split
  · rename_i v heq; rw [heq] at h; simp [Cell.isNum] at h
  · rfl

theorem getD_num_lt_length {m : List (Cell α)} {j : ℕ} {v : ℚ}
    (h : m.getD j .pyNone = .num v) : j < m.length := by
  by_contra hge
  rw [List.getD_eq_getElem?_getD, List.getElem?_len_le (by omega)] at h
  simp at h

theorem bumpAt_getD_self {m : List (Cell α)} {j : ℕ} {v : ℚ}
    (h : m.getD j .pyNone = .num v) (δ : ℚ) :
    (bumpAt m j δ).getD j .pyNone = .num (v + δ) := by
  have hlt : j < m.length := getD_num_lt_length h
  unfold bumpAt
  rw [h, List.getD_eq_getElem?_getD, List.getElem?_set_self hlt]
  rfl

theorem bumpAt_isNum (m : List (Cell α)) (j n : ℕ) (δ : ℚ) :
    ((bumpAt m j δ).getD n .pyNone).isNum = (m.getD n .pyNone).isNum := by
  rcases eq_or_ne j n with rfl | hne
  · rcases hnum : m.getD j .pyNone with v | sr | _
    · rw [bumpAt_getD_self hnum δ]
      rfl
    · rw [bumpAt_of_not_num (by rw [hnum]; rfl) δ, hnum]
    · rw [bumpAt_of_not_num (by rw [hnum]; rfl) δ, hnum]
  · rw [bumpAt_getD_ne m hne]

theorem bumpAt_val_of_num {m : List (Cell α)} {j : ℕ}
    (h : (m.getD j .pyNone).isNum = true) (δ : ℚ) (n : ℕ) :
    nodeVal (bumpAt m j δ) n = nodeVal m n + (if n = j then δ else 0) := by
  rcases hnum : m.getD j .pyNone with v | sr | _
  · rcases eq_or_ne n j with rfl | hne
    · rw [nodeVal, nodeVal, bumpAt_getD_self hnum δ, hnum, if_pos rfl]
      rfl
    · rw [nodeVal, nodeVal, bumpAt_getD_ne m (Ne.symm hne) δ, if_neg hne,
        add_zero]
  · rw [hnum] at h; simp [Cell.isNum] at h
  · rw [hnum] at h; simp [Cell.isNum] at h

theorem updateGo_length (δ : ℚ) :
    ∀ f l (m : List (Cell α)), (updateGo δ f l m).length = m.length := by
  intro f
  induction f with
  | zero => intro l m; cases l <;> rfl
  | succ f ih =>
      intro l m
      cases l with
      | zero => rfl
      | succ j => rw [updateGo, ih, bumpAt_length]

theorem updateGo_isNum (δ : ℚ) :
    ∀ f l (m : List (Cell α)) n,
      ((updateGo δ f l m).getD n .pyNone).isNum = (m.getD n .pyNone).isNum := by
  intro f
  induction f with
  | zero => intro l m n; cases l <;> rfl
  | succ f ih =>
      intro l m n
      cases l with
      | zero => rfl
      | succ j => rw [updateGo, ih, bumpAt_isNum]

theorem updateGo_getD_not_num (δ : ℚ) :
    ∀ f l (m : List (Cell α)) n, ((m.getD n .pyNone).isNum = false) →
      (updateGo δ f l m).getD n .pyNone = m.getD n .pyNone := by
  intro f
  induction f with
  | zero => intro l m n _; cases l <;> rfl
  | succ f ih =>
      intro l m n h
      cases l with
      | zero => rfl
      | succ j =>
          rw [updateGo]
          rcases eq_or_ne (j / 2) n with rfl | hne
          · rw [ih _ _ _ (by rwa [bumpAt_isNum]), bumpAt_of_not_num h]
          · rw [ih _ _ _ (by rwa [bumpAt_isNum]), bumpAt_getD_ne m hne]

theorem updateGo_val (δ : ℚ) :
    ∀ f l (m : List (Cell α)), l ≤ f →
      (∀ a ∈ chainGo f l, (m.getD a .pyNone).isNum = true) →
      ∀ n, nodeVal (updateGo δ f l m) n
            = nodeVal m n + ((chainGo f l).count n : ℚ) * δ := by
  intro f
  induction f with
  | zero =>
      intro l m hl _ n
      interval_cases l
      simp [updateGo, chainGo_zero]
  | succ f ih =>
      intro l m hl hc n
      cases l with
      | zero => simp [updateGo, chainGo_zero]
      | succ j =>
          have hhead : (m.getD (j / 2) .pyNone).isNum = true :=
            hc _ (by simp [chainGo])
          have htail : ∀ a ∈ chainGo f (j / 2),
              ((bumpAt m (j / 2) δ).getD a .pyNone).isNum = true := by
            intro a ha
            rw [bumpAt_isNum]
            exact hc a (by simp [chainGo, ha])
          rw [updateGo, ih (j / 2) _ (by omega) htail n,
            bumpAt_val_of_num hhead δ n]
          simp only [chainGo, List.count_cons, beq_iff_eq]
          by_cases hn : n = j / 2
          · subst hn
            rw [if_pos rfl, if_pos rfl]
            push_cast
            ring
          · rw [if_neg hn, if_neg (fun hh => hn hh.symm)]
            push_cast
            ring

/-! ### getD facts for set and append -/

theorem getD_set_self {m : List (Cell α)} {p : ℕ} (h : p < m.length) (c : Cell α) :
    (m.set p c).getD p .pyNone = c := by
  rw [List.getD_eq_getElem?_getD, List.getElem?_set_self h]
  rfl

theorem getD_set_ne (m : List (Cell α)) {p n : ℕ} (h : p ≠ n) (c : Cell α) :
    (m.set p c).getD n .pyNone = m.getD n .pyNone := by
  rw [List.getD_eq_getElem?_getD, List.getElem?_set_ne h, ← List.getD_eq_getElem?_getD]

theorem getD_append_pyNone (m : List (Cell α)) (n : ℕ) :
    (m ++ [Cell.pyNone]).getD n .pyNone = m.getD n .pyNone := by
  rw [List.getD_eq_getElem?_getD, List.getD_eq_getElem?_getD, List.getElem?_append]
  by_cases h : n < m.length
  · rw [if_pos h]
  · rw [if_neg h, List.getElem?_len_le (show m.length ≤ n by omega)]
    rcases hk : n - m.length with _ | k <;> rfl

theorem getD_ne_default_lt_length {m : List (Cell α)} {j : ℕ}
    (h : m.getD j .pyNone ≠ .pyNone) : j < m.length := by
  by_contra hge
  rw [List.getD_eq_getElem?_getD, List.getElem?_len_le (by omega)] at h
  simp at h

/-! ### The sum-tree invariants -/

/-- Internal-node consistency over a raw memory list of capacity `c`: every
internal node stores the sum of its two children's values. -/
def ConsistentM (m : List (Cell α)) (c : ℕ) : Prop :=
  ∀ i, i < c - 1 → nodeVal m i = nodeVal m (2 * i + 1) + nodeVal m (2 * i + 2)

/-- The sum of all leaf priorities (unset and absent leaves contribute 0). -/
def leafSumM (m : List (Cell α)) (c : ℕ) : ℚ :=
  ∑ j ∈ Finset.range c, nodeVal m (c - 1 + j)

/-- Structural well-formedness of a reachable `SumTree` state: the internal
prefix is complete and numeric, the leaf region holds rows, the length is
bounded by `2 * capacity - 1`, and the cursor matches the fill level while the
tree is not yet full. -/
def SumTree.WF (t : SumTree α) : Prop :=
  1 ≤ t.capacity ∧
  t.capacity - 1 ≤ t.memory.length ∧
  t.memory.length ≤ 2 * t.capacity - 1 ∧
  t.position < t.capacity ∧
  (t.memory.length < 2 * t.capacity - 1 →
    t.memory.length = (t.capacity - 1) + t.position) ∧
  (∀ i, i < t.memory.length →
    (i < t.capacity - 1 → (t.memory.getD i .pyNone).isNum = true) ∧
    (t.capacity - 1 ≤ i → (t.memory.getD i .pyNone).isRow = true))

instance (t : SumTree α) [DecidableEq α] : Decidable t.WF := by
  unfold SumTree.WF
  infer_instance

/-- Internal-node consistency of a tree state. -/
def SumTree.Consistent (t : SumTree α) : Prop :=
  ConsistentM t.memory t.capacity

/-- The root value equals the sum of all leaf priorities. -/
def SumTree.RootEq (t : SumTree α) : Prop :=
  nodeVal t.memory 0 = leafSumM t.memory t.capacity

/-- The full sum-tree invariant. -/
def SumTree.Inv (t : SumTree α) : Prop :=
  t.WF ∧ t.Consistent ∧ t.RootEq

theorem consistentM_congr {m m' : List (Cell α)} {c : ℕ}
    (h : ∀ n, nodeVal m' n = nodeVal m n) (hc : ConsistentM m c) : ConsistentM m' c := by
  intro i hi
  rw [h, h, h]
  exact hc i hi

theorem leafSumM_congr {m m' : List (Cell α)} {c : ℕ}
    (h : ∀ n, nodeVal m' n = nodeVal m n) : leafSumM m' c = leafSumM m c :=
  Finset.sum_congr rfl (fun j _ => h (c - 1 + j))

/-! ### Effect of overwriting one leaf and propagating the delta -/

theorem setProp_val (m : List (Cell α)) (c pos : ℕ) (cNew : Cell α) (δ : ℚ)
    (hp : pos < m.length) (hlen : m.length ≤ 2 * c - 1)
    (hc1 : c - 1 ≤ m.length)
    (hnum : ∀ i, i < c - 1 → (m.getD i .pyNone).isNum = true)
    (hδ : cNew.cellVal = (m.getD pos .pyNone).cellVal + δ) :
    ∀ n, nodeVal (updateInternalNodes (m.set pos cNew) pos δ) n
      = nodeVal m n
        + (((chainGo pos pos).count n : ℚ) + if pos = n then (1 : ℚ) else 0) * δ := by
  intro n
  have hchain : ∀ a ∈ chainGo pos pos, ((m.set pos cNew).getD a .pyNone).isNum = true := by
    intro a ha
    have hb := chainGo_bound pos pos a ha
    have hane : pos ≠ a := by omega
    rw [getD_set_ne m hane]
    exact hnum a (by omega)
  rw [updateInternalNodes, updateGo_val δ pos pos _ le_rfl hchain n]
  rcases eq_or_ne pos n with rfl | hne
  · simp only [nodeVal]
    have hz : ((chainGo pos pos).count pos : ℚ) = 0 := by
      norm_cast
      rw [List.count_eq_zero]
      intro hmem
      have := chainGo_bound pos pos pos hmem
      omega
    rw [getD_set_self hp, hδ, hz]
    norm_num
  · simp only [nodeVal]
    rw [getD_set_ne m hne, if_neg hne]
    ring

theorem setProp_consistent (m : List (Cell α)) (c pos : ℕ) (cNew : Cell α) (δ : ℚ)
    (hp : pos < m.length) (hlen : m.length ≤ 2 * c - 1)
    (hc1 : c - 1 ≤ m.length)
    (hnum : ∀ i, i < c - 1 → (m.getD i .pyNone).isNum = true)
    (hδ : cNew.cellVal = (m.getD pos .pyNone).cellVal + δ)
    (hpos : c - 1 ≤ pos)
    (hcons : ConsistentM m c) :
    ConsistentM (updateInternalNodes (m.set pos cNew) pos δ) c := by
  intro i hi
  have hval := setProp_val m c pos cNew δ hp hlen hc1 hnum hδ
  rw [hval i, hval (2 * i + 1), hval (2 * i + 2)]
  have hcc := chainGo_count_children i pos pos le_rfl
  simp only [List.count_cons, beq_iff_eq] at hcc
  have hci := hcons i hi
  have hι : (if pos = i then (1 : ℚ) else 0) = 0 := by
    rw [if_neg (by omega)]
  rw [hι]
  split_ifs at hcc ⊢ <;>
  · have hq := congrArg (fun x : ℕ => (x : ℚ)) hcc
    push_cast at hq
    linear_combination hci + δ * hq

theorem setProp_root (m : List (Cell α)) (c pos : ℕ) (cNew : Cell α) (δ : ℚ)
    (hp : pos < m.length) (hlen : m.length ≤ 2 * c - 1)
    (hc1 : c - 1 ≤ m.length)
    (hnum : ∀ i, i < c - 1 → (m.getD i .pyNone).isNum = true)
    (hδ : cNew.cellVal = (m.getD pos .pyNone).cellVal + δ) :
    nodeVal (updateInternalNodes (m.set pos cNew) pos δ) 0 = nodeVal m 0 + δ := by
  rw [setProp_val m c pos cNew δ hp hlen hc1 hnum hδ 0]
  rcases Nat.eq_zero_or_pos pos with rfl | hpos
  · rw [chainGo_zero, if_pos rfl]
    simp
  · rw [chainGo_count_root pos pos hpos le_rfl, if_neg (by omega)]
    push_cast
    ring

theorem setProp_leafSum (m : List (Cell α)) (c pos : ℕ) (cNew : Cell α) (δ : ℚ)
    (hp : pos < m.length) (hlen : m.length ≤ 2 * c - 1)
    (hc1 : c - 1 ≤ m.length)
    (hnum : ∀ i, i < c - 1 → (m.getD i .pyNone).isNum = true)
    (hδ : cNew.cellVal = (m.getD pos .pyNone).cellVal + δ)
    (hpos : c - 1 ≤ pos) :
    leafSumM (updateInternalNodes (m.set pos cNew) pos δ) c = leafSumM m c + δ := by
  unfold leafSumM
  have hval := setProp_val m c pos cNew δ hp hlen hc1 hnum hδ
  have hterm : ∀ j ∈ Finset.range c,
      nodeVal (updateInternalNodes (m.set pos cNew) pos δ) (c - 1 + j)
        = nodeVal m (c - 1 + j) + (if j = pos - (c - 1) then δ else 0) := by
    intro j hj
    rw [hval (c - 1 + j)]
    have hcount : (chainGo pos pos).count (c - 1 + j) = 0 := by
      rw [List.count_eq_zero]
      intro hmem
      have := chainGo_bound pos pos _ hmem
      omega
    rw [hcount]
    by_cases hj0 : j = pos - (c - 1)
    · rw [if_pos (by omega), if_pos hj0]
      push_cast
      ring
    · rw [if_neg (by omega), if_neg hj0]
      push_cast
      ring
  rw [Finset.sum_congr rfl hterm, Finset.sum_add_distrib,
    Finset.sum_ite_eq' (Finset.range c) (pos - (c - 1)) (fun _ => δ),
    if_pos (Finset.mem_range.2 (by omega))]

/-! ### Invariant preservation -/

theorem isRow_iff {α : Type} {cl : Cell α} : cl.isRow = true ↔ ∃ sr, cl = .row sr := by
  cases cl <;> simp [Cell.isRow]

theorem isNum_iff {α : Type} {cl : Cell α} : cl.isNum = true ↔ ∃ v, cl = .num v := by
  cases cl <;> simp [Cell.isNum]

theorem SumTree.isFull_iff {t : SumTree α} (h1 : t.capacity - 1 ≤ t.memory.length)
    (h2 : t.memory.length ≤ 2 * t.capacity - 1) (h3 : 1 ≤ t.capacity) :
    t.isFull = true ↔ t.memory.length = 2 * t.capacity - 1 := by
  unfold SumTree.isFull SumTree.len
  rw [beq_iff_eq]
  omega

theorem SumTree.put_of_full {t : SumTree α} (h : t.isFull = true) (item : α) (p : Option ℚ) :
    t.put item p =
      ⟨t.capacity,
       updateInternalNodes
         (t.memory.set ((t.capacity - 1) + t.position) (.row ⟨item, p⟩))
         ((t.capacity - 1) + t.position)
         (p.getD 0 - oldPriorityAt t.memory ((t.capacity - 1) + t.position)),
       (t.position + 1) % t.capacity⟩ := by
  simp [SumTree.put, SumTree.nextPositionThenIncrement, h]

theorem SumTree.put_of_not_full {t : SumTree α} (h : t.isFull = false) (item : α) (p : Option ℚ) :
    t.put item p =
      ⟨t.capacity,
       updateInternalNodes
         ((t.memory ++ [Cell.pyNone]).set ((t.capacity - 1) + t.position) (.row ⟨item, p⟩))
         ((t.capacity - 1) + t.position)
         (p.getD 0 - oldPriorityAt (t.memory ++ [Cell.pyNone]) ((t.capacity - 1) + t.position)),
       (t.position + 1) % t.capacity⟩ := by
  simp [SumTree.put, SumTree.nextPositionThenIncrement, h]

theorem SumTree.moveIdx_of_row {t : SumTree α} {index : ℕ} {sr : SumRow α}
    (hcell : t.memory.getD index .pyNone = .row sr) (np : ℚ) :
    t.moveIdx index np =
      ⟨t.capacity,
       updateInternalNodes (t.memory.set index (.row ⟨sr.item, some np⟩)) index
         (np - sr.priority.getD 0),
       t.position⟩ := by
  unfold SumTree.moveIdx
  rw [hcell]

theorem SumTree.moveIdx_of_not_row {t : SumTree α} {index : ℕ}
    (hcell : (t.memory.getD index .pyNone).isRow = false) (np : ℚ) :
    t.moveIdx index np = t := by
  unfold SumTree.moveIdx
  rcases h : t.memory.getD index .pyNone with v | sr | _
  · rfl
  · rw [h] at hcell; simp [Cell.isRow] at hcell
  · rfl

theorem SumTree.WF.leaf_not_num {t : SumTree α} (h : t.WF) {i : ℕ}
    (hi : t.capacity - 1 ≤ i) : (t.memory.getD i .pyNone).isNum = false := by
  obtain ⟨hcap, hlow, hhigh, hposlt, hlink, hcells⟩ := h
  by_cases hin : i < t.memory.length
  · have := (hcells i hin).2 hi
    rcases isRow_iff.1 this with ⟨sr, hsr⟩
    rw [hsr]
    rfl
  · rw [List.getD_eq_getElem?_getD, List.getElem?_len_le (show t.memory.length ≤ i by omega)]
    rfl

theorem SumTree.Inv_put {t : SumTree α} (h : t.Inv) (item : α) (p : Option ℚ) :
    (t.put item p).Inv := by
  obtain ⟨hwf, hcons, hroot⟩ := h
  obtain ⟨hcap, hlow, hhigh, hposlt, hlink, hcells⟩ := hwf
  by_cases hfull : t.isFull = true
  · -- overwriting an existing leaf in a full tree
    have hlenfull : t.memory.length = 2 * t.capacity - 1 :=
      (SumTree.isFull_iff hlow hhigh hcap).1 hfull
    rw [SumTree.put_of_full hfull]
    have hp : (t.capacity - 1) + t.position < t.memory.length := by omega
    have hposge : t.capacity - 1 ≤ (t.capacity - 1) + t.position := by omega
    obtain ⟨sr, hsr⟩ := isRow_iff.1 ((hcells _ hp).2 hposge)
    have hδ : (Cell.row ⟨item, p⟩ : Cell α).cellVal
        = (t.memory.getD ((t.capacity - 1) + t.position) .pyNone).cellVal
          + (p.getD 0 - oldPriorityAt t.memory ((t.capacity - 1) + t.position)) := by
      unfold oldPriorityAt
      rw [hsr]
      show p.getD 0 = sr.priority.getD 0 + (p.getD 0 - sr.priority.getD 0)
      ring
    have hnum : ∀ i, i < t.capacity - 1 → (t.memory.getD i .pyNone).isNum = true :=
      fun i hi => (hcells i (by omega)).1 hi
    have hL : (updateInternalNodes
        (t.memory.set ((t.capacity - 1) + t.position) (.row ⟨item, p⟩))
        ((t.capacity - 1) + t.position)
        (p.getD 0 - oldPriorityAt t.memory ((t.capacity - 1) + t.position))).length
        = t.memory.length := by
      rw [updateInternalNodes, updateGo_length, List.length_set]
    refine ⟨⟨hcap, ?_, ?_, ?_, ?_, ?_⟩, ?_, ?_⟩
    · dsimp only
      rw [hL]
      omega
    · dsimp only
      rw [hL]
      omega
    · dsimp only
      exact Nat.mod_lt _ (by omega)
    · dsimp only
      rw [hL]
      intro hlt
      omega
    · intro i hi
      dsimp only at hi ⊢
      rw [hL] at hi
      constructor
      · intro hint
        rw [updateInternalNodes, updateGo_isNum,
          getD_set_ne _ (show (t.capacity - 1) + t.position ≠ i by omega)]
        exact hnum i hint
      · intro hleaf
        rcases eq_or_ne ((t.capacity - 1) + t.position) i with heq | hne
        · rw [← heq, updateInternalNodes, updateGo_getD_not_num _ _ _ _ _
            (by rw [getD_set_self hp]; rfl), getD_set_self hp]
          rfl
        · rw [updateInternalNodes, updateGo_getD_not_num _ _ _ _ _
            (by rw [getD_set_ne _ hne]
                exact SumTree.WF.leaf_not_num
                  ⟨hcap, hlow, hhigh, hposlt, hlink, hcells⟩ hleaf),
            getD_set_ne _ hne]
          exact (hcells i hi).2 hleaf
    · exact setProp_consistent t.memory t.capacity _ _ _ hp hhigh hlow hnum hδ hposge hcons
    · show nodeVal _ 0 = leafSumM _ _
      dsimp only
      rw [setProp_root t.memory t.capacity _ _ _ hp hhigh hlow hnum hδ,
        setProp_leafSum t.memory t.capacity _ _ _ hp hhigh hlow hnum hδ hposge, hroot]
  · -- appending a fresh leaf while not yet full
    have hfull' : t.isFull = false := by
      cases hb : t.isFull
      · rfl
      · exact absurd hb hfull
    have hlenlt : t.memory.length < 2 * t.capacity - 1 := by
      have hne : t.len ≠ t.capacity := by
        intro he
        exact hfull (by unfold SumTree.isFull; rw [beq_iff_eq]; exact he)
      unfold SumTree.len at hne
      omega
    have hlink' : t.memory.length = (t.capacity - 1) + t.position := hlink hlenlt
    rw [SumTree.put_of_not_full hfull']
    have hlen0 : (t.memory ++ [Cell.pyNone]).length = t.memory.length + 1 := by simp
    have hp : (t.capacity - 1) + t.position < (t.memory ++ [Cell.pyNone]).length := by omega
    have hposge : t.capacity - 1 ≤ (t.capacity - 1) + t.position := by omega
    have hcellpos : (t.memory ++ [Cell.pyNone]).getD ((t.capacity - 1) + t.position) .pyNone
        = Cell.pyNone := by
      rw [getD_append_pyNone, List.getD_eq_getElem?_getD,
        List.getElem?_len_le (show t.memory.length ≤ (t.capacity - 1) + t.position by omega)]
      rfl
    have hδ : (Cell.row ⟨item, p⟩ : Cell α).cellVal
        = ((t.memory ++ [Cell.pyNone]).getD ((t.capacity - 1) + t.position) .pyNone).cellVal
          + (p.getD 0
              - oldPriorityAt (t.memory ++ [Cell.pyNone]) ((t.capacity - 1) + t.position)) := by
      unfold oldPriorityAt
      rw [hcellpos]
      show p.getD 0 = (0 : ℚ) + (p.getD 0 - 0)
      ring
    have hnum : ∀ i, i < t.capacity - 1 →
        ((t.memory ++ [Cell.pyNone]).getD i .pyNone).isNum = true := by
      intro i hi
      rw [getD_append_pyNone]
      exact (hcells i (by omega)).1 hi
    have hvals : ∀ n, nodeVal (t.memory ++ [Cell.pyNone]) n = nodeVal t.memory n := by
      intro n
      unfold nodeVal
      rw [getD_append_pyNone]
    have hL : (updateInternalNodes
        ((t.memory ++ [Cell.pyNone]).set ((t.capacity - 1) + t.position) (.row ⟨item, p⟩))
        ((t.capacity - 1) + t.position)
        (p.getD 0 - oldPriorityAt (t.memory ++ [Cell.pyNone]) ((t.capacity - 1) + t.position))).length
        = t.memory.length + 1 := by
      rw [updateInternalNodes, updateGo_length, List.length_set, hlen0]
    refine ⟨⟨hcap, ?_, ?_, ?_, ?_, ?_⟩, ?_, ?_⟩
    · dsimp only
      rw [hL]
      omega
    · dsimp only
      rw [hL]
      omega
    · dsimp only
      exact Nat.mod_lt _ (by omega)
    · dsimp only
      rw [hL]
      intro hlt
      have hplt : t.position + 1 < t.capacity := by omega
      rw [Nat.mod_eq_of_lt hplt]
      omega
    · intro i hi
      dsimp only at hi ⊢
      rw [hL] at hi
      constructor
      · intro hint
        rw [updateInternalNodes, updateGo_isNum,
          getD_set_ne _ (show (t.capacity - 1) + t.position ≠ i by omega),
          getD_append_pyNone]
        exact (hcells i (by omega)).1 hint
      · intro hleaf
        rcases eq_or_ne ((t.capacity - 1) + t.position) i with heq | hne
        · rw [← heq, updateInternalNodes, updateGo_getD_not_num _ _ _ _ _
            (by rw [getD_set_self hp]; rfl), getD_set_self hp]
          rfl
        · have hnotnum : (((t.memory ++ [Cell.pyNone]).set
              ((t.capacity - 1) + t.position) (.row ⟨item, p⟩)).getD i .pyNone).isNum
              = false := by
            rw [getD_set_ne _ hne, getD_append_pyNone]
            exact SumTree.WF.leaf_not_num ⟨hcap, hlow, hhigh, hposlt, hlink, hcells⟩ hleaf
          rw [updateInternalNodes, updateGo_getD_not_num _ _ _ _ _ hnotnum,
            getD_set_ne _ hne, getD_append_pyNone]
          exact (hcells i (by omega)).2 hleaf
    · exact setProp_consistent _ t.capacity _ _ _ hp (by omega) (by omega) hnum hδ hposge
        (consistentM_congr hvals hcons)
    · show nodeVal _ 0 = leafSumM _ _
      dsimp only
      rw [setProp_root _ t.capacity _ _ _ hp (by omega) (by omega) hnum hδ,
        setProp_leafSum _ t.capacity _ _ _ hp (by omega) (by omega) hnum hδ hposge,
        hvals 0, leafSumM_congr hvals, hroot]

theorem SumTree.Inv_moveIdx {t : SumTree α} (h : t.Inv) (index : ℕ) (np : ℚ) :
    (t.moveIdx index np).Inv := by
  obtain ⟨hwf, hcons, hroot⟩ := h
  obtain ⟨hcap, hlow, hhigh, hposlt, hlink, hcells⟩ := hwf
  by_cases hrow : (t.memory.getD index .pyNone).isRow = true
  · obtain ⟨sr, hsr⟩ := isRow_iff.1 hrow
    rw [SumTree.moveIdx_of_row hsr np]
    have hp : index < t.memory.length := getD_ne_default_lt_length (by rw [hsr]; simp)
    have hposge : t.capacity - 1 ≤ index := by
      by_contra hlt
      have := (hcells index hp).1 (by omega)
      rw [hsr] at this
      simp [Cell.isNum] at this
    have hδ : (Cell.row ⟨sr.item, some np⟩ : Cell α).cellVal
        = (t.memory.getD index .pyNone).cellVal + (np - sr.priority.getD 0) := by
      rw [hsr]
      show np = sr.priority.getD 0 + (np - sr.priority.getD 0)
      ring
    have hnum : ∀ i, i < t.capacity - 1 → (t.memory.getD i .pyNone).isNum = true :=
      fun i hi => (hcells i (by omega)).1 hi
    have hL : (updateInternalNodes (t.memory.set index (.row ⟨sr.item, some np⟩)) index
        (np - sr.priority.getD 0)).length = t.memory.length := by
      rw [updateInternalNodes, updateGo_length, List.length_set]
    refine ⟨⟨hcap, ?_, ?_, ?_, ?_, ?_⟩, ?_, ?_⟩
    · dsimp only
      rw [hL]
      omega
    · dsimp only
      rw [hL]
      omega
    · exact hposlt
    · dsimp only
      rw [hL]
      exact hlink
    · intro i hi
      dsimp only at hi ⊢
      rw [hL] at hi
      constructor
      · intro hint
        rw [updateInternalNodes, updateGo_isNum,
          getD_set_ne _ (show index ≠ i by omega)]
        exact (hcells i hi).1 hint
      · intro hleaf
        rcases eq_or_ne index i with heq | hne
        · rw [← heq, updateInternalNodes, updateGo_getD_not_num _ _ _ _ _
            (by rw [getD_set_self hp]; rfl), getD_set_self hp]
          rfl
        · rw [updateInternalNodes, updateGo_getD_not_num _ _ _ _ _
            (by rw [getD_set_ne _ hne]
                exact SumTree.WF.leaf_not_num
                  ⟨hcap, hlow, hhigh, hposlt, hlink, hcells⟩ hleaf),
            getD_set_ne _ hne]
          exact (hcells i hi).2 hleaf
    · exact setProp_consistent t.memory t.capacity _ _ _ hp hhigh hlow hnum hδ hposge hcons
    · show nodeVal _ 0 = leafSumM _ _
      dsimp only
      rw [setProp_root t.memory t.capacity _ _ _ hp hhigh hlow hnum hδ,
        setProp_leafSum t.memory t.capacity _ _ _ hp hhigh hlow hnum hδ hposge, hroot]
  · rw [SumTree.moveIdx_of_not_row (by revert hrow; cases (t.memory.getD index .pyNone).isRow <;> simp) np]
    exact ⟨⟨hcap, hlow, hhigh, hposlt, hlink, hcells⟩, hcons, hroot⟩

theorem SumTree.Inv_move {t : SumTree α} (h : t.Inv) (ext : ℕ) (np : ℚ) :
    (t.move ext np).Inv :=
  SumTree.Inv_moveIdx h _ np

theorem nodeVal_replicate_zero (k n : ℕ) :
    nodeVal (List.replicate k (Cell.num 0) : List (Cell α)) n = 0 := by
  unfold nodeVal
  rw [List.getD_eq_getElem?_getD, List.getElem?_replicate]
  by_cases h : n < k
  · rw [if_pos h]
    rfl
  · rw [if_neg h]
    rfl

theorem SumTree.Inv_init (α : Type) (c : ℕ) (hc : 1 ≤ c) : (SumTree.init α c).Inv := by
  refine ⟨⟨hc, ?_, ?_, ?_, ?_, ?_⟩, ?_, ?_⟩
  · simp [SumTree.init]
  · simp [SumTree.init]
    omega
  · simpa [SumTree.init] using hc
  · intro hlt
    simp [SumTree.init]
  · intro i hi
    simp only [SumTree.init, List.length_replicate] at hi
    constructor
    · intro hint
      unfold SumTree.init
      dsimp only
      rw [List.getD_eq_getElem?_getD, List.getElem?_replicate, if_pos hi]
      rfl
    · intro hleaf
      simp only [SumTree.init] at hleaf
      omega
  · intro i hi
    show nodeVal _ _ = nodeVal _ _ + nodeVal _ _
    unfold SumTree.init
    dsimp only
    rw [nodeVal_replicate_zero, nodeVal_replicate_zero, nodeVal_replicate_zero]
    ring
  · show nodeVal _ 0 = leafSumM _ _
    unfold SumTree.init leafSumM
    dsimp only
    rw [nodeVal_replicate_zero]
    rw [Finset.sum_congr rfl (fun j _ => nodeVal_replicate_zero (c - 1) (c - 1 + j))]
    simp

/-- One caller-visible mutation of a `SumTree`: an insert (`put`) or a
priority update (`move`). -/
inductive SumOp (α : Type) where
  | put (item : α) (priority : Option ℚ)
  | move (externalIndex : ℕ) (newPriority : ℚ)

def applyOp (t : SumTree α) : SumOp α → SumTree α
  | .put it p => t.put it p
  | .move e p => t.move e p

/-- A sequence of `put`/`move` operations applied left to right. -/
def applyOps (t : SumTree α) (ops : List (SumOp α)) : SumTree α :=
  ops.foldl applyOp t

theorem SumTree.Inv_applyOps {t : SumTree α} (h : t.Inv) (ops : List (SumOp α)) :
    (applyOps t ops).Inv := by
  induction ops generalizing t with
  | nil => exact h
  | cons op rest ih =>
      cases op with
      | put it p => exact ih (SumTree.Inv_put h it p)
      | move e np => exact ih (SumTree.Inv_move h e np)

/-- **C1**: after any sequence of `put` (insert) and `move` (priority-update)
operations on a sum-tree of capacity `c ≥ 1`, every internal node's stored
value equals the sum of its two children's values, and the root value equals
the sum of all leaf priorities, an unset (`None`) priority contributing 0. -/
theorem C1_sum_invariant {α : Type} (c : ℕ) (ops : List (SumOp α)) (hc : 1 ≤ c) :
    (applyOps (SumTree.init α c) ops).Consistent ∧ (applyOps (SumTree.init α c) ops).RootEq :=
  ⟨(SumTree.Inv_applyOps (SumTree.Inv_init α c hc) ops).2.1,
   (SumTree.Inv_applyOps (SumTree.Inv_init α c hc) ops).2.2⟩

/-- Witness for C1 at a concrete capacity and operation sequence. -/
theorem C1_sum_invariant_witness :
    (1 ≤ 2) ∧
    ((applyOps (SumTree.init ℕ 2) [SumOp.put 5 (some 1), SumOp.put 6 none, SumOp.move 0 3]).Consistent ∧
     (applyOps (SumTree.init ℕ 2) [SumOp.put 5 (some 1), SumOp.put 6 none, SumOp.move 0 3]).RootEq) :=
  ⟨by norm_num, C1_sum_invariant 2 [SumOp.put 5 (some 1), SumOp.put 6 none, SumOp.move 0 3] (by norm_num)⟩

/-- **C2**: updating the priority of a populated leaf (external index `ext`,
stored row `sr`) to `np` via `move` changes the root value by exactly
`np - old` where `old` is the leaf's previous priority (`0` when unset),
rewrites that leaf to carry the same item with priority `np`, and leaves every
other leaf's cell (hence its stored priority) unchanged. -/
theorem C2_move_effect {α : Type} (t : SumTree α) (ext : ℕ) (sr : SumRow α) (np : ℚ)
    (hwf : t.WF) (hcell : t.memory.getD (ext + (t.capacity - 1)) .pyNone = .row sr) :
    nodeVal (t.move ext np).memory 0 = nodeVal t.memory 0 + (np - sr.priority.getD 0) ∧
    (t.move ext np).memory.getD (ext + (t.capacity - 1)) .pyNone = .row ⟨sr.item, some np⟩ ∧
    (∀ j, j ≠ ext →
      (t.move ext np).memory.getD (t.capacity - 1 + j) .pyNone
        = t.memory.getD (t.capacity - 1 + j) .pyNone) := by
  obtain ⟨hcap, hlow, hhigh, hposlt, hlink, hcells⟩ := hwf
  have hp : ext + (t.capacity - 1) < t.memory.length :=
    getD_ne_default_lt_length (by rw [hcell]; simp)
  have hposge : t.capacity - 1 ≤ ext + (t.capacity - 1) := by omega
  have hδ : (Cell.row ⟨sr.item, some np⟩ : Cell α).cellVal
      = (t.memory.getD (ext + (t.capacity - 1)) .pyNone).cellVal
        + (np - sr.priority.getD 0) := by
    rw [hcell]
    show np = sr.priority.getD 0 + (np - sr.priority.getD 0)
    ring
  have hnum : ∀ i, i < t.capacity - 1 → (t.memory.getD i .pyNone).isNum = true :=
    fun i hi => (hcells i (by omega)).1 hi
  unfold SumTree.move
  rw [SumTree.moveIdx_of_row hcell np]
  refine ⟨?_, ?_, ?_⟩
  · dsimp only
    exact setProp_root t.memory t.capacity _ _ _ hp hhigh hlow hnum hδ
  · dsimp only
    rw [updateInternalNodes, updateGo_getD_not_num _ _ _ _ _
      (by rw [getD_set_self hp]; rfl), getD_set_self hp]
  · intro j hj
    dsimp only
    have hne : ext + (t.capacity - 1) ≠ t.capacity - 1 + j := by omega
    have hnotnum : ((t.memory.set (ext + (t.capacity - 1))
        (.row ⟨sr.item, some np⟩)).getD (t.capacity - 1 + j) .pyNone).isNum = false := by
      rw [getD_set_ne _ hne]
      exact SumTree.WF.leaf_not_num ⟨hcap, hlow, hhigh, hposlt, hlink, hcells⟩ (by omega)
    rw [updateInternalNodes, updateGo_getD_not_num _ _ _ _ _ hnotnum, getD_set_ne _ hne]

/-- Witness for C2 on a concrete populated two-leaf tree. -/
theorem C2_move_effect_witness :
    ((⟨2, [Cell.num 3, Cell.row ⟨(10 : ℕ), some 1⟩, Cell.row ⟨20, some 2⟩], 0⟩ :
        SumTree ℕ).WF) ∧
    ((⟨2, [Cell.num 3, Cell.row ⟨(10 : ℕ), some 1⟩, Cell.row ⟨20, some 2⟩], 0⟩ :
        SumTree ℕ).memory.getD (0 + (2 - 1)) .pyNone = .row ⟨10, some 1⟩) ∧
    (nodeVal ((⟨2, [Cell.num 3, Cell.row ⟨(10 : ℕ), some 1⟩, Cell.row ⟨20, some 2⟩], 0⟩ :
        SumTree ℕ).move 0 5).memory 0
      = nodeVal [Cell.num 3, Cell.row ⟨(10 : ℕ), some 1⟩, Cell.row ⟨20, some 2⟩] 0
        + (5 - (some (1 : ℚ)).getD 0)) := by
  refine ⟨by decide, by decide, ?_⟩
  exact (C2_move_effect
    (⟨2, [Cell.num 3, Cell.row ⟨(10 : ℕ), some 1⟩, Cell.row ⟨20, some 2⟩], 0⟩ : SumTree ℕ)
    0 ⟨10, some 1⟩ 5 (by decide) (by decide)).1

/-! ### Sequences of unset-priority inserts (as issued by the orchestrator) -/

/-- Insert a list of items left to right with unset priority, as
`PrioritizedReplay.add_observation` does via `self.observations.put(obs, None)`. -/
def putSeqNone (t : SumTree α) (items : List α) : SumTree α :=
  items.foldl (fun acc it => acc.put it none) t

theorem putSeqNone_append_one (t : SumTree α) (L : List α) (x : α) :
    putSeqNone t (L ++ [x]) = (putSeqNone t L).put x none := by
  unfold putSeqNone
  rw [List.foldl_append]
  rfl

theorem num_char {α : Type} {cl : Cell α} (h : cl.isNum = true) : cl = .num cl.cellVal := by
  cases cl <;> simp [Cell.isNum, Cell.cellVal] at h ⊢

theorem mod_pred (a c : ℕ) (h1 : 1 ≤ a) (h : a % c ≠ 0) :
    a % c = (a - 1) % c + 1 := by
  rcases c with _ | _ | c
  · omega
  · omega
  · rcases a with _ | b
    · omega
    · have hb : b % (c + 2) < c + 2 := Nat.mod_lt _ (by omega)
      have h1c : 1 % (c + 2) = 1 := Nat.mod_eq_of_lt (by omega)
      have hbs : (b + 1) % (c + 2) = (b % (c + 2) + 1) % (c + 2) := by
        rw [Nat.add_mod, h1c]
      by_cases hbc : b % (c + 2) + 1 < c + 2
      · rw [hbs, Nat.mod_eq_of_lt hbc]
        simp
      · have hbe : b % (c + 2) + 1 = c + 2 := by omega
        rw [hbs, hbe, Nat.mod_self] at h
        exact absurd rfl h

theorem sub_mod_self_mod (n c : ℕ) : (n - n % c) % c = 0 := by
  have hd := Nat.div_add_mod n c
  have : n - n % c = c * (n / c) := by omega
  rw [this, Nat.mul_mod_right]

theorem succ_mod_of_mod (n c : ℕ) : (n % c + 1) % c = (n + 1) % c := by
  rw [Nat.add_mod n 1 c, Nat.add_mod (n % c) 1 c, Nat.mod_mod_of_dvd n (dvd_refl c)]

/-- The physical contents of a sum-tree after `L.length` unset-priority
inserts into an initially empty tree of capacity `c`: internal nodes all hold
`0`, leaf slot `j` holds the most recent item written at cursor position `j`
(the item of index `len - 1 - ((len - 1 - j) % c)` in `L`), and slots never
written are absent. -/
theorem putSeqNone_state {α : Type} (c : ℕ) (hc : 1 ≤ c) (L : List α) :
    (putSeqNone (SumTree.init α c) L).capacity = c ∧
    (putSeqNone (SumTree.init α c) L).memory.length = (c - 1) + min L.length c ∧
    (putSeqNone (SumTree.init α c) L).position = L.length % c ∧
    (∀ i, i < c - 1 → ∃ v, (putSeqNone (SumTree.init α c) L).memory.getD i .pyNone
        = .num v ∧ v = 0) ∧
    (∀ j, j < min L.length c → ∃ x,
        L[L.length - 1 - ((L.length - 1 - j) % c)]? = some x ∧
        (putSeqNone (SumTree.init α c) L).memory.getD (c - 1 + j) .pyNone
          = .row ⟨x, none⟩) ∧
    (∀ j, min L.length c ≤ j →
        (putSeqNone (SumTree.init α c) L).memory.getD (c - 1 + j) .pyNone = .pyNone) := by
  induction L using List.reverseRecOn with
  | nil =>
      refine ⟨rfl, by simp [putSeqNone, SumTree.init], by simp [putSeqNone, SumTree.init],
        ?_, ?_, ?_⟩
      · intro i hi
        refine ⟨0, ?_, rfl⟩
        show (List.replicate (c - 1) (Cell.num 0)).getD i .pyNone = _
        rw [List.getD_eq_getElem?_getD, List.getElem?_replicate, if_pos hi]
        rfl
      · intro j hj
        simp at hj
      · intro j hj
        show (List.replicate (c - 1) (Cell.num 0)).getD (c - 1 + j) .pyNone = _
        rw [List.getD_eq_getElem?_getD,
          List.getElem?_len_le (by simp)]
        rfl
  | append_singleton L x ih =>
      obtain ⟨hcap, hlen, hpos, hint, hleaf, habsent⟩ := ih
      rw [putSeqNone_append_one]
      by_cases hnc : L.length < c
      · -- the tree is not yet full: a fresh leaf is appended
        have hminn : min L.length c = L.length := by omega
        rw [hminn] at hlen hleaf habsent
        have hnotfull : (putSeqNone (SumTree.init α c) L).isFull = false := by
          unfold SumTree.isFull SumTree.len
          rw [hlen, hcap, beq_eq_false_iff_ne]
          omega
        have hmodn : L.length % c = L.length := Nat.mod_eq_of_lt hnc
        have hposidx : (putSeqNone (SumTree.init α c) L).capacity - 1
            + (putSeqNone (SumTree.init α c) L).position = (c - 1) + L.length := by
          rw [hcap, hpos, hmodn]
        rw [SumTree.put_of_not_full hnotfull, hposidx]
        set m0 := (putSeqNone (SumTree.init α c) L).memory ++ [Cell.pyNone] with hm0
        have hm0len : m0.length = (c - 1) + L.length + 1 := by
          rw [hm0, List.length_append, hlen]
          rfl
        have hcellpos : m0.getD ((c - 1) + L.length) .pyNone = Cell.pyNone := by
          rw [hm0, getD_append_pyNone, List.getD_eq_getElem?_getD,
            List.getElem?_len_le (by rw [hlen])]
          rfl
        have hold : SumTree.oldPriorityAt m0 ((c - 1) + L.length) = 0 := by
          unfold SumTree.oldPriorityAt
          rw [hcellpos]
        have hplt : (c - 1) + L.length < m0.length := by omega
        have hδ0 : (none : Option ℚ).getD 0
            - SumTree.oldPriorityAt m0 ((c - 1) + L.length) = 0 := by
          rw [hold]
          simp
        have hchain : ∀ a ∈ chainGo ((c - 1) + L.length) ((c - 1) + L.length),
            ((m0.set ((c - 1) + L.length) (.row ⟨x, none⟩)).getD a .pyNone).isNum = true := by
          intro a ha
          have hb := chainGo_bound _ _ a ha
          rw [getD_set_ne _ (by omega), hm0, getD_append_pyNone]
          obtain ⟨v, hv, _⟩ := hint a (by omega)
          rw [hv]
          rfl
        refine ⟨hcap, ?_, ?_, ?_, ?_, ?_⟩
        · dsimp only
          rw [updateInternalNodes, updateGo_length, List.length_set, hm0len]
          simp
          omega
        · dsimp only
          rw [hcap, hpos, succ_mod_of_mod]
          simp
        · intro i hi
          dsimp only
          obtain ⟨v, hv, hv0⟩ := hint i hi
          have hnumi : ((m0.set ((c - 1) + L.length) (.row ⟨x, none⟩)).getD i .pyNone).isNum
              = true := by
            rw [getD_set_ne _ (by omega), hm0, getD_append_pyNone, hv]
            rfl
          have hnum2 : ((updateInternalNodes (m0.set ((c - 1) + L.length) (.row ⟨x, none⟩))
              ((c - 1) + L.length) ((none : Option ℚ).getD 0
                - SumTree.oldPriorityAt m0 ((c - 1) + L.length))).getD i .pyNone).isNum
              = true := by
            rw [updateInternalNodes, updateGo_isNum]
            exact hnumi
          refine ⟨_, num_char hnum2, ?_⟩
          show nodeVal _ i = 0
          rw [updateInternalNodes, hδ0, updateGo_val 0 _ _ _ le_rfl hchain]
          unfold nodeVal
          rw [getD_set_ne _ (by omega), hm0, getD_append_pyNone, hv, hv0]
          show (0 : ℚ) + _ * 0 = 0
          ring
        · intro j hj
          dsimp only
          rcases Nat.lt_or_ge j L.length with hjn | hjn
          · -- previously written slots keep their rows
            obtain ⟨y, hy, hrow⟩ := hleaf j hjn
            refine ⟨y, ?_, ?_⟩
            · have hidx : (L ++ [x]).length - 1 - (((L ++ [x]).length - 1 - j) % c) = j := by
                simp only [List.length_append, List.length_singleton]
                have : (L.length + 1 - 1 - j) % c = L.length - j := by
                  rw [Nat.mod_eq_of_lt (by omega)]
                  omega
                omega
              rw [hidx, List.getElem?_append, if_pos (show j < L.length by omega)]
              have hidx' : L.length - 1 - ((L.length - 1 - j) % c) = j := by
                rw [Nat.mod_eq_of_lt (by omega)]
                omega
              rw [hidx'] at hy
              exact hy
            · have hnr : ((m0.set ((c - 1) + L.length) (.row ⟨x, none⟩)).getD (c - 1 + j)
                  .pyNone).isNum = false := by
                rw [getD_set_ne _ (by omega), hm0, getD_append_pyNone, hrow]
                rfl
              rw [updateInternalNodes, updateGo_getD_not_num _ _ _ _ _ hnr,
                getD_set_ne _ (by omega), hm0, getD_append_pyNone, hrow]
          · -- the newly appended slot
            have hj' : j = L.length := by
              simp only [List.length_append, List.length_singleton] at hj
              omega
            subst hj'
            refine ⟨x, ?_, ?_⟩
            · have hidx : (L ++ [x]).length - 1 - (((L ++ [x]).length - 1 - L.length) % c)
                  = L.length := by
                simp only [List.length_append, List.length_singleton]
                have h0 : L.length + 1 - 1 - L.length = 0 := by omega
                rw [h0, Nat.zero_mod]
                omega
              rw [hidx, List.getElem?_concat_length]
            · have hsr : ((m0.set ((c - 1) + L.length) (.row ⟨x, none⟩)).getD
                  ((c - 1) + L.length) .pyNone) = .row ⟨x, none⟩ := getD_set_self hplt _
              rw [updateInternalNodes, updateGo_getD_not_num _ _ _ _ _ (by rw [hsr]; rfl)]
              exact hsr
        · intro j hj
          dsimp only
          rw [List.getD_eq_getElem?_getD, List.getElem?_len_le ?_]
          · rfl
          · rw [updateInternalNodes, updateGo_length, List.length_set, hm0len]
            simp only [List.length_append, List.length_singleton] at hj
            omega
      · -- the tree is already full: an existing leaf is overwritten
        have hnc' : c ≤ L.length := by omega
        have hminn : min L.length c = c := by omega
        rw [hminn] at hlen hleaf habsent
        have hfull : (putSeqNone (SumTree.init α c) L).isFull = true := by
          unfold SumTree.isFull SumTree.len
          rw [hlen, hcap, beq_iff_eq]
          omega
        rw [SumTree.put_of_full hfull]
        set j0 := L.length % c with hj0
        have hj0lt : j0 < c := Nat.mod_lt _ (by omega)
        have hposidx : (putSeqNone (SumTree.init α c) L).capacity - 1
            + (putSeqNone (SumTree.init α c) L).position = (c - 1) + j0 := by
          rw [hcap, hpos]
        rw [hposidx]
        obtain ⟨y0, hy0, hrow0⟩ := hleaf j0 hj0lt
        have hold : SumTree.oldPriorityAt (putSeqNone (SumTree.init α c) L).memory
            ((c - 1) + j0) = 0 := by
          unfold SumTree.oldPriorityAt
          rw [hrow0]
          rfl
        have hplt : (c - 1) + j0 < (putSeqNone (SumTree.init α c) L).memory.length := by
          rw [hlen]
          omega
        have hδ0 : (none : Option ℚ).getD 0
            - SumTree.oldPriorityAt (putSeqNone (SumTree.init α c) L).memory ((c - 1) + j0)
            = 0 := by
          rw [hold]
          simp
        have hchain : ∀ a ∈ chainGo ((c - 1) + j0) ((c - 1) + j0),
            (((putSeqNone (SumTree.init α c) L).memory.set ((c - 1) + j0)
              (.row ⟨x, none⟩)).getD a .pyNone).isNum = true := by
          intro a ha
          have hb := chainGo_bound _ _ a ha
          rw [getD_set_ne _ (by omega)]
          obtain ⟨v, hv, _⟩ := hint a (by omega)
          rw [hv]
          rfl
        refine ⟨hcap, ?_, ?_, ?_, ?_, ?_⟩
        · dsimp only
          rw [updateInternalNodes, updateGo_length, List.length_set, hlen]
          simp only [List.length_append, List.length_singleton]
          omega
        · dsimp only
          rw [hcap, hpos, succ_mod_of_mod]
          simp
        · intro i hi
          dsimp only
          obtain ⟨v, hv, hv0⟩ := hint i hi
          have hnumi : (((putSeqNone (SumTree.init α c) L).memory.set ((c - 1) + j0)
              (.row ⟨x, none⟩)).getD i .pyNone).isNum = true := by
            rw [getD_set_ne _ (by omega), hv]
            rfl
          have hnum2 : ((updateInternalNodes ((putSeqNone (SumTree.init α c) L).memory.set
              ((c - 1) + j0) (.row ⟨x, none⟩)) ((c - 1) + j0)
              ((none : Option ℚ).getD 0 - SumTree.oldPriorityAt
                (putSeqNone (SumTree.init α c) L).memory ((c - 1) + j0))).getD i
              .pyNone).isNum = true := by
            rw [updateInternalNodes, updateGo_isNum]
            exact hnumi
          refine ⟨_, num_char hnum2, ?_⟩
          show nodeVal _ i = 0
          rw [updateInternalNodes, hδ0, updateGo_val 0 _ _ _ le_rfl hchain]
          unfold nodeVal
          rw [getD_set_ne _ (by omega), hv, hv0]
          show (0 : ℚ) + _ * 0 = 0
          ring
        · intro j hj
          dsimp only
          have hminn2 : min (L ++ [x]).length c = c := by
            simp only [List.length_append, List.length_singleton]
            omega
          rw [hminn2] at hj
          rcases eq_or_ne j j0 with rfl | hne
          · -- slot at the cursor is overwritten with the new item
            refine ⟨x, ?_, ?_⟩
            · have hidx : (L ++ [x]).length - 1 - (((L ++ [x]).length - 1 - j0) % c)
                  = L.length := by
                simp only [List.length_append, List.length_singleton]
                have h1 : L.length + 1 - 1 - j0 = L.length - j0 := by omega
                rw [h1, hj0, sub_mod_self_mod]
                omega
              rw [hidx, List.getElem?_concat_length]
            · have hsr : (((putSeqNone (SumTree.init α c) L).memory.set ((c - 1) + j0)
                  (.row ⟨x, none⟩)).getD ((c - 1) + j0) .pyNone) = .row ⟨x, none⟩ :=
                getD_set_self hplt _
              rw [updateInternalNodes, updateGo_getD_not_num _ _ _ _ _ (by rw [hsr]; rfl)]
              exact hsr
          · -- every other slot keeps its previous row
            obtain ⟨y, hy, hrow⟩ := hleaf j hj
            refine ⟨y, ?_, ?_⟩
            · have hmodne : (L.length - j) % c ≠ 0 := by
                intro h0
                have : L.length % c = j % c := by
                  have h2 : L.length = (L.length - j) + j := by omega
                  rw [h2, Nat.add_mod, h0]
                  simp [Nat.mod_mod_of_dvd]
                rw [Nat.mod_eq_of_lt hj] at this
                exact hne (by rw [hj0, this])
              have hstep : (L.length - j) % c = (L.length - 1 - j) % c + 1 := by
                have hmp := mod_pred (L.length - j) c (by omega) hmodne
                have he : L.length - j - 1 = L.length - 1 - j := by omega
                rw [he] at hmp
                exact hmp
              have hidx : (L ++ [x]).length - 1 - (((L ++ [x]).length - 1 - j) % c)
                  = L.length - 1 - ((L.length - 1 - j) % c) := by
                simp only [List.length_append, List.length_singleton]
                have h1 : L.length + 1 - 1 - j = L.length - j := by omega
                rw [h1, hstep]
                have hb : (L.length - 1 - j) % c ≤ L.length - 1 - j := Nat.mod_le _ _
                omega
              rw [hidx, List.getElem?_append,
                if_pos (show L.length - 1 - ((L.length - 1 - j) % c) < L.length by omega)]
              exact hy
            · have hnr : ((((putSeqNone (SumTree.init α c) L).memory.set ((c - 1) + j0)
                  (.row ⟨x, none⟩))).getD (c - 1 + j) .pyNone).isNum = false := by
                rw [getD_set_ne _ (by omega), hrow]
                rfl
              rw [updateInternalNodes, updateGo_getD_not_num _ _ _ _ _ hnr,
                getD_set_ne _ (by omega), hrow]
        · intro j hj
          dsimp only
          have hminn2 : min (L ++ [x]).length c = c := by
            simp only [List.length_append, List.length_singleton]
            omega
          rw [hminn2] at hj
          rw [List.getD_eq_getElem?_getD, List.getElem?_len_le ?_]
          · rfl
          · rw [updateInternalNodes, updateGo_length, List.length_set, hlen]
            omega

/-- **C3**: inserting items `1, 2, ..., c + k` (with `c ≥ 1`, `k ≥ 1`) into an
initially empty sum-tree of capacity `c` leaves the buffer holding exactly the
items `k+1 .. c+k`: slot `j` holds the last item written at cursor position
`j` (strict insertion-order FIFO eviction through the wrapping cursor), an
item is stored iff it lies in `k+1 .. c+k`, and item `1` is in no slot, hence
unretrievable by any subsequent read. -/
theorem C3_wraparound_fifo (c k : ℕ) (hc : 1 ≤ c) (hk : 1 ≤ k) :
    (∀ j, j < c →
      (putSeqNone (SumTree.init ℕ c) ((List.range (c + k)).map (fun i => i + 1))).leafItem j
        = some ((c + k) - ((c + k - 1 - j) % c))) ∧
    (∀ v, (∃ j, j < c ∧
      (putSeqNone (SumTree.init ℕ c) ((List.range (c + k)).map (fun i => i + 1))).leafItem j
        = some v) ↔ (k + 1 ≤ v ∧ v ≤ c + k)) ∧
    (∀ j, (putSeqNone (SumTree.init ℕ c) ((List.range (c + k)).map (fun i => i + 1))).leafItem j
        ≠ some 1) := by
  obtain ⟨hcap, hlen, hpos, hint, hleaf, habsent⟩ :=
    putSeqNone_state c hc ((List.range (c + k)).map (fun i => i + 1))
  have hLlen : ((List.range (c + k)).map (fun i => i + 1)).length = c + k := by simp
  have hform : ∀ j, j < c →
      (putSeqNone (SumTree.init ℕ c) ((List.range (c + k)).map (fun i => i + 1))).leafItem j
        = some ((c + k) - ((c + k - 1 - j) % c)) := by
    intro j hj
    obtain ⟨x, hx, hrow⟩ := hleaf j (by rw [hLlen]; omega)
    have hli : (putSeqNone (SumTree.init ℕ c)
        ((List.range (c + k)).map (fun i => i + 1))).leafItem j = some x := by
      unfold SumTree.leafItem
      rw [hcap, hrow]
    rw [hli, hLlen] at *
    have hrle : (c + k - 1 - j) % c ≤ c + k - 1 - j := Nat.mod_le _ _
    have hidxlt : c + k - 1 - ((c + k - 1 - j) % c) < c + k := by omega
    rw [List.getElem?_map, List.getElem?_range hidxlt, Option.map_some'] at hx
    have hxval := Option.some.inj hx
    rw [hli]
    congr 1
    omega
  refine ⟨hform, ?_, ?_⟩
  · intro v
    constructor
    · rintro ⟨j, hj, hvj⟩
      rw [hform j hj] at hvj
      have hveq := Option.some.inj hvj
      have hrlt : (c + k - 1 - j) % c < c := Nat.mod_lt _ (by omega)
      omega
    · rintro ⟨h1, h2⟩
      refine ⟨(v - 1) % c, Nat.mod_lt _ (by omega), ?_⟩
      rw [hform _ (Nat.mod_lt _ (by omega))]
      congr 1
      have hq := Nat.div_add_mod (v - 1) c
      have hjle : (v - 1) % c ≤ v - 1 := Nat.mod_le _ _
      have hjv : v - 1 - (v - 1) % c = c * ((v - 1) / c) := by omega
      have hsplit : c + k - 1 - (v - 1) % c = (c + k - v) + (v - 1 - (v - 1) % c) := by
        omega
      rw [hsplit, hjv, Nat.add_mul_mod_self_left]
      have hsm : (c + k - v) % c = c + k - v := Nat.mod_eq_of_lt (by omega)
      omega
  · intro j
    by_cases hj : j < c
    · rw [hform j hj]
      intro hcontra
      have hone := Option.some.inj hcontra
      have hrlt : (c + k - 1 - j) % c < c := Nat.mod_lt _ (by omega)
      omega
    · have habs := habsent j (by rw [hLlen]; omega)
      unfold SumTree.leafItem
      rw [hcap, habs]
      simp

/-- Witness for C3 at capacity 2 with one wrap-around insert. -/
theorem C3_wraparound_fifo_witness :
    (1 ≤ 2) ∧ (1 ≤ 1) ∧
    ((∀ j, j < 2 →
      (putSeqNone (SumTree.init ℕ 2) ((List.range (2 + 1)).map (fun i => i + 1))).leafItem j
        = some ((2 + 1) - ((2 + 1 - 1 - j) % 2))) ∧
    (∀ v, (∃ j, j < 2 ∧
      (putSeqNone (SumTree.init ℕ 2) ((List.range (2 + 1)).map (fun i => i + 1))).leafItem j
        = some v) ↔ (1 + 1 ≤ v ∧ v ≤ 2 + 1)) ∧
    (∀ j, (putSeqNone (SumTree.init ℕ 2) ((List.range (2 + 1)).map (fun i => i + 1))).leafItem j
        ≠ some 1)) :=
  ⟨by norm_num, by norm_num, C3_wraparound_fifo 2 1 (by norm_num) (by norm_num)⟩

/-! ### Effect of `_move` on individual cells, and `update_batch` -/

theorem row_not_num {α : Type} {cl : Cell α} (h : cl.isRow = true) : cl.isNum = false := by
  cases cl <;> simp [Cell.isRow, Cell.isNum] at h ⊢

theorem moveIdx_getD_other {t : SumTree α} {i q : ℕ} (hq : q ≠ i)
    (hnn : (t.memory.getD i .pyNone).isNum = false) (np : ℚ) :
    (t.moveIdx q np).memory.getD i .pyNone = t.memory.getD i .pyNone := by
  rcases hcell : t.memory.getD q .pyNone with v | sr | _
  · rw [SumTree.moveIdx_of_not_row (by rw [hcell]; rfl) np]
  · rw [SumTree.moveIdx_of_row hcell np]
    dsimp only
    rw [updateInternalNodes, updateGo_getD_not_num _ _ _ _ _
      (by rw [getD_set_ne _ hq]; exact hnn), getD_set_ne _ hq]
  · rw [SumTree.moveIdx_of_not_row (by rw [hcell]; rfl) np]

theorem moveIdx_getD_self {t : SumTree α} {i : ℕ} {sr : SumRow α}
    (hcell : t.memory.getD i .pyNone = .row sr) (np : ℚ) :
    (t.moveIdx i np).memory.getD i .pyNone = .row ⟨sr.item, some np⟩ := by
  rw [SumTree.moveIdx_of_row hcell np]
  dsimp only
  have hp : i < t.memory.length := getD_ne_default_lt_length (by rw [hcell]; simp)
  rw [updateInternalNodes, updateGo_getD_not_num _ _ _ _ _
    (by rw [getD_set_self hp]; rfl), getD_set_self hp]

theorem updateStep_weight {S A I : Type} (r : PrioritizedReplay S A I) (p : ℕ × ℚ) :
    (PrioritizedReplay.updateStep r p).prioritization_weight = r.prioritization_weight := rfl

theorem updateFold_getD_untouched {S A I : Type} :
    ∀ (pairs : List (ℕ × ℚ)) (r : PrioritizedReplay S A I) (i : ℕ),
      (∀ pr ∈ pairs, pr.1 ≠ i) →
      ((r.observations.memory.getD i .pyNone).isNum = false) →
      (pairs.foldl PrioritizedReplay.updateStep r).observations.memory.getD i .pyNone
        = r.observations.memory.getD i .pyNone := by
  intro pairs
  induction pairs with
  | nil => intro r i _ _; rfl
  | cons p rest ih =>
      intro r i hne hnn
      rw [List.foldl_cons]
      have hstep : (PrioritizedReplay.updateStep r p).observations.memory.getD i .pyNone
          = r.observations.memory.getD i .pyNone :=
        moveIdx_getD_other (hne p (List.mem_cons_self p rest)) hnn _
      rw [ih _ i (fun pr hpr => hne pr (List.mem_cons_of_mem _ hpr))
        (by rw [hstep]; exact hnn)]
      exact hstep

theorem updateFold_cells {S A I : Type} :
    ∀ (pairs : List (ℕ × ℚ)) (r : PrioritizedReplay S A I),
      (pairs.map Prod.fst).Nodup →
      (∀ pr ∈ pairs, (r.observations.memory.getD pr.1 .pyNone).isRow = true) →
      ∀ pr ∈ pairs, ∃ sr : SumRow (Transition S A I),
        r.observations.memory.getD pr.1 .pyNone = .row sr ∧
        (pairs.foldl PrioritizedReplay.updateStep r).observations.memory.getD pr.1 .pyNone
          = .row ⟨sr.item, some (pr.2 ^ r.prioritization_weight)⟩ := by
  intro pairs
  induction pairs with
  | nil => intro r _ _ pr hpr; cases hpr
  | cons p rest ih =>
      intro r hnodup hrows pr hpr
      have hpnotin : ∀ q ∈ rest, q.1 ≠ p.1 := by
        intro q hq heq
        have : p.1 ∈ rest.map Prod.fst := heq ▸ List.mem_map_of_mem Prod.fst hq
        rw [List.map_cons] at hnodup
        exact (List.nodup_cons.1 hnodup).1 this
      rcases List.mem_cons.1 hpr with rfl | hmem
      · obtain ⟨sr, hsr⟩ := isRow_iff.1 (hrows pr (List.mem_cons_self pr rest))
        refine ⟨sr, hsr, ?_⟩
        rw [List.foldl_cons]
        have hstep : (PrioritizedReplay.updateStep r pr).observations.memory.getD pr.1 .pyNone
            = .row ⟨sr.item, some (pr.2 ^ r.prioritization_weight)⟩ :=
          moveIdx_getD_self hsr _
        rw [updateFold_getD_untouched rest _ pr.1 hpnotin (by rw [hstep]; rfl)]
        exact hstep
      · obtain ⟨sr, hsr⟩ := isRow_iff.1 (hrows pr (List.mem_cons_of_mem _ hmem))
        refine ⟨sr, hsr, ?_⟩
        rw [List.foldl_cons]
        have hq1 : pr.1 ≠ p.1 := hpnotin pr hmem
        have hkeep : (PrioritizedReplay.updateStep r p).observations.memory.getD pr.1 .pyNone
            = r.observations.memory.getD pr.1 .pyNone :=
          moveIdx_getD_other (fun h => hq1 h.symm) (row_not_num (hrows pr hpr)) _
        have hrows1 : ∀ q ∈ rest, (((PrioritizedReplay.updateStep r p).observations.memory.getD
            q.1 .pyNone)).isRow = true := by
          intro q hq
          show ((r.observations.moveIdx p.1
            (p.2 ^ r.prioritization_weight)).memory.getD q.1 .pyNone).isRow = true
          rw [moveIdx_getD_other (fun h => (hpnotin q hq) h.symm)
            (row_not_num (hrows q (List.mem_cons_of_mem _ hq))) _]
          exact hrows q (List.mem_cons_of_mem _ hq)
        obtain ⟨sr', hsr', hres⟩ := ih (PrioritizedReplay.updateStep r p)
          ((List.nodup_cons.1 (by rw [List.map_cons] at hnodup; exact hnodup)).2)
          hrows1 pr hmem
        rw [hkeep, hsr] at hsr'
        injection hsr' with he
        rw [hres, ← he]
        rfl

/-- **C4**: `update_batch` with a losses list whose length equals the retained
batch context succeeds (no error) and rewrites each sampled leaf's priority to
`loss ** prioritization_weight` (stated for a duplicate-free context whose
indices all reference populated leaves, which is what a well-formed
`get_batch` retains); with a mismatched length, or with no batch context at
all, it fails with the corresponding `TensorForceError` and mutates nothing:
no leaf priority and no internal sum changes. -/
theorem C4_update_batch {S A I : Type} :
    (∀ (r : PrioritizedReplay S A I) (idxs : List ℕ) (losses : List ℚ)
      (hbi : r.batch_indices = some idxs)
      (hlen : losses.length = idxs.length)
      (hnd : idxs.Nodup)
      (hrows : ∀ i ∈ idxs, (r.observations.memory.getD i .pyNone).isRow = true),
      (r.updateBatch losses).2 = none ∧
      ∀ k (hk : k < idxs.length), ∃ sr : SumRow (Transition S A I),
        r.observations.memory.getD (idxs.get ⟨k, hk⟩) .pyNone = .row sr ∧
        (r.updateBatch losses).1.observations.memory.getD (idxs.get ⟨k, hk⟩) .pyNone
          = .row ⟨sr.item,
              some ((losses.get ⟨k, by omega⟩) ^ r.prioritization_weight)⟩) ∧
    (∀ (r : PrioritizedReplay S A I) (idxs : List ℕ) (losses : List ℚ),
      r.batch_indices = some idxs →
      losses.length ≠ idxs.length →
      r.updateBatch losses = (r, some .tfMismatch)) ∧
    (∀ (r : PrioritizedReplay S A I) (losses : List ℚ),
      r.batch_indices = none →
      r.updateBatch losses = (r, some .tfMissingContext)) := by
  refine ⟨?_, ?_, ?_⟩
  · intro r idxs losses hbi hlen hnodup hrows
    have hub : r.updateBatch losses = ((idxs.zip losses).foldl PrioritizedReplay.updateStep r,
        none) := by
      unfold PrioritizedReplay.updateBatch
      rw [hbi]
      exact if_neg (fun h => h hlen)
    constructor
    · rw [hub]
    · intro k hk
      have hzlen : (idxs.zip losses).length = idxs.length := by
        rw [List.length_zip, hlen, min_self]
      have hkz : k < (idxs.zip losses).length := by omega
      have hprzip : (idxs.zip losses).get ⟨k, hkz⟩ = (idxs.get ⟨k, hk⟩,
          losses.get ⟨k, by omega⟩) := by
        rw [List.get_eq_getElem, List.get_eq_getElem, List.get_eq_getElem,
          List.getElem_zip]
      have hmem : ((idxs.get ⟨k, hk⟩, losses.get ⟨k, (by omega : k < losses.length)⟩) :
          ℕ × ℚ) ∈ idxs.zip losses := by
        rw [← hprzip]
        exact List.get_mem _ _ _
      have hmapfst : (idxs.zip losses).map Prod.fst = idxs :=
        List.map_fst_zip idxs losses (by omega)
      obtain ⟨sr, hsr, hres⟩ := updateFold_cells (idxs.zip losses) r
        (by rw [hmapfst]; exact hnodup)
        (fun pr hpr => hrows pr.1 (List.of_mem_zip hpr).1)
        _ hmem
      refine ⟨sr, hsr, ?_⟩
      rw [hub]
      exact hres
  · intro r idxs losses hbi hlen
    unfold PrioritizedReplay.updateBatch
    rw [hbi]
    exact if_pos hlen
  · intro r losses hbi
    unfold PrioritizedReplay.updateBatch
    rw [hbi]

/-! ### Concrete states used by witnesses and counterexamples -/

/-- A concrete transition record. -/
def tr0 : Transition ℕ ℕ ℕ := ⟨0, 0, 0, false, none, 0, none⟩

/-- Another concrete transition record. -/
def tr1 : Transition ℕ ℕ ℕ := ⟨1, 0, 0, false, none, 1, none⟩

/-- A two-slot replay state with both leaves scored and batch context `[1]`. -/
def exC4 : PrioritizedReplay ℕ ℕ ℕ :=
  ⟨1, some [], some [1],
   ⟨2, [Cell.num 3, Cell.row ⟨tr0, some 1⟩, Cell.row ⟨tr1, some 2⟩], 0⟩, 0, none⟩

/-- The same state with no retained batch context. -/
def exC4n : PrioritizedReplay ℕ ℕ ℕ :=
  ⟨1, some [], none,
   ⟨2, [Cell.num 3, Cell.row ⟨tr0, some 1⟩, Cell.row ⟨tr1, some 2⟩], 0⟩, 0, none⟩

/-- Witness for C4: all three branches at concrete states. -/
theorem C4_update_batch_witness :
    ((exC4.updateBatch [2]).2 = none) ∧
    (∃ sr : SumRow (Transition ℕ ℕ ℕ),
      exC4.observations.memory.getD ([1].get ⟨0, by norm_num⟩) .pyNone = .row sr ∧
      (exC4.updateBatch [2]).1.observations.memory.getD ([1].get ⟨0, by norm_num⟩) .pyNone
        = .row ⟨sr.item, some ((([2] : List ℚ).get ⟨0, by norm_num⟩)
            ^ exC4.prioritization_weight)⟩) ∧
    (exC4.updateBatch [1, 2] = (exC4, some .tfMismatch)) ∧
    (exC4n.updateBatch [2] = (exC4n, some .tfMissingContext)) :=
  ⟨(C4_update_batch.1 exC4 [1] [2] rfl (by norm_num) (by decide) (by decide)).1,
   (C4_update_batch.1 exC4 [1] [2] rfl (by norm_num) (by decide) (by decide)).2 0 (by norm_num),
   C4_update_batch.2.1 exC4 [1] [1, 2] rfl (by norm_num),
   C4_update_batch.2.2 exC4n [2] rfl⟩

/-! ### `add_observation` on a full buffer (C5, C6) -/

/-- **C5** (amended): completing a pending transition into a full buffer
fails with the capacity-exhaustion error when the boundary counter is `≤ 0`,
leaving the tree and the counter untouched; otherwise the call succeeds and
the counter is decremented by exactly 1 — unconditionally, regardless of
whether the evicted slot's priority was set or unset, and with no
compensating increment for the newly written unset slot. -/
theorem C5_full_insert_counter {S A I : Type}
    (r : PrioritizedReplay S A I) (s : S) (a : A) (rew : ℚ) (term : Bool)
    (intl : Option (List I)) (lo : Obs5 S A I)
    (hlo : r.last_observation = some lo)
    (hfull : r.observations.isFull = true) :
    (r.none_priority_index ≤ 0 →
      (r.addObservation s a rew term intl).2 = some .tfCapacity ∧
      (r.addObservation s a rew term intl).1.observations = r.observations ∧
      (r.addObservation s a rew term intl).1.none_priority_index
        = r.none_priority_index) ∧
    (0 < r.none_priority_index →
      (r.addObservation s a rew term intl).2 = none ∧
      (r.addObservation s a rew term intl).1.none_priority_index
        = r.none_priority_index - 1) := by
  constructor
  · intro h
    simp only [PrioritizedReplay.addObservation, hlo, hfull, if_true, if_pos h]
    exact ⟨trivial, trivial, trivial⟩
  · intro h
    simp only [PrioritizedReplay.addObservation, hlo, hfull, if_true,
      if_neg (show ¬ r.none_priority_index ≤ 0 by omega)]
    exact ⟨trivial, trivial⟩

/-- A full one-slot replay whose only (about-to-be-evicted) slot is scored
and whose boundary counter is `1`. -/
def exC5 : PrioritizedReplay ℕ ℕ ℕ :=
  ⟨1, some [], none, ⟨1, [Cell.row ⟨tr0, some 2⟩], 0⟩, 1, some ⟨7, 0, 0, false, none⟩⟩

/-- Counterexample to C5 as stated: inserting into a full buffer whose
evicted slot is *scored* (priority `some 2`, not unset) still decrements the
counter from `1` to `0` and performs no increment for the newly written unset
slot, whereas the claim predicts no decrement (evicted slot not unset)
followed by an increment, i.e. a counter of `2`. -/
theorem C5_full_insert_counter_counterexample :
    exC5.observations.memory.getD
      ((exC5.observations.capacity - 1) + exC5.observations.position) .pyNone
      = .row ⟨tr0, some 2⟩ ∧
    exC5.none_priority_index = 1 ∧
    (exC5.addObservation 9 0 0 false none).2 = none ∧
    (exC5.addObservation 9 0 0 false none).1.none_priority_index = 0 ∧
    ¬ (exC5.addObservation 9 0 0 false none).1.none_priority_index
        = exC5.none_priority_index + 1 := by
  refine ⟨by decide, by decide, ?_, ?_, ?_⟩ <;>
  · show _
    decide

/-- Witness for the amended C5 at a concrete full buffer. -/
theorem C5_full_insert_counter_witness :
    (exC5.last_observation = some ⟨7, 0, 0, false, none⟩) ∧
    (exC5.observations.isFull = true) ∧
    ((exC5.none_priority_index ≤ 0 →
      (exC5.addObservation 9 0 0 false none).2 = some .tfCapacity ∧
      (exC5.addObservation 9 0 0 false none).1.observations = exC5.observations ∧
      (exC5.addObservation 9 0 0 false none).1.none_priority_index
        = exC5.none_priority_index) ∧
    (0 < exC5.none_priority_index →
      (exC5.addObservation 9 0 0 false none).2 = none ∧
      (exC5.addObservation 9 0 0 false none).1.none_priority_index
        = exC5.none_priority_index - 1)) :=
  ⟨by decide, by decide,
   C5_full_insert_counter exC5 9 0 0 false none ⟨7, 0, 0, false, none⟩ (by decide) (by decide)⟩

/-- **C6** (amended): when `add_observation` completes normally, the current
observation is stored as the new pending half-transition; when it raises the
capacity-exhaustion error, the `raise` aborts the method before
`self.last_observation` is reassigned, so the previous pending
half-transition is kept and the new observation is *not* stored. -/
theorem C6_pending_observation {S A I : Type} (r : PrioritizedReplay S A I) (s : S) (a : A)
    (rew : ℚ) (term : Bool) (intl : Option (List I)) :
    ((r.addObservation s a rew term intl).2 = none →
      (r.addObservation s a rew term intl).1.last_observation
        = some ⟨s, a, rew, term, intl⟩) ∧
    (∀ e, (r.addObservation s a rew term intl).2 = some e →
      (r.addObservation s a rew term intl).1.last_observation = r.last_observation) := by
  rcases hlo : r.last_observation with _ | lo
  · constructor
    · intro _
      simp only [PrioritizedReplay.addObservation, hlo]
    · intro e he
      simp only [PrioritizedReplay.addObservation, hlo] at he
      exact Option.noConfusion he
  · by_cases hf : r.observations.isFull = true
    · by_cases hn : r.none_priority_index ≤ 0
      · constructor
        · intro hok
          simp only [PrioritizedReplay.addObservation, hlo, hf, if_true, if_pos hn] at hok
          exact Option.noConfusion hok
        · intro e he
          simp only [PrioritizedReplay.addObservation, hlo, hf, if_true, if_pos hn]
      · constructor
        · intro _
          simp only [PrioritizedReplay.addObservation, hlo, hf, if_true, if_neg hn]
        · intro e he
          simp only [PrioritizedReplay.addObservation, hlo, hf, if_true, if_neg hn] at he
          exact Option.noConfusion he
    · have hf' : r.observations.isFull = false := by
        cases hb : r.observations.isFull
        · rfl
        · exact absurd hb hf
      constructor
      · intro _
        simp only [PrioritizedReplay.addObservation, hlo, hf', Bool.false_eq_true, if_false]
      · intro e he
        simp only [PrioritizedReplay.addObservation, hlo, hf', Bool.false_eq_true,
          if_false] at he
        exact Option.noConfusion he

/-- A full one-slot replay with boundary counter `0` and a pending
half-transition. -/
def exC6 : PrioritizedReplay ℕ ℕ ℕ :=
  ⟨1, some [], none, ⟨1, [Cell.row ⟨tr0, none⟩], 0⟩, 0, some ⟨7, 0, 0, false, none⟩⟩

/-- Counterexample to C6 as stated: on the capacity-exhaustion error path the
current observation is *not* stored as the new pending half-transition — the
old one survives. -/
theorem C6_pending_observation_counterexample :
    (exC6.addObservation 9 0 0 false none).2 = some .tfCapacity ∧
    (exC6.addObservation 9 0 0 false none).1.last_observation
      = some ⟨7, 0, 0, false, none⟩ ∧
    ¬ (exC6.addObservation 9 0 0 false none).1.last_observation
        = some ⟨9, 0, 0, false, none⟩ := by
  refine ⟨by decide, by decide, by decide⟩

/-- Witness for the amended C6 at a concrete state (both the success path and
the error path are exercised). -/
theorem C6_pending_observation_witness :
    (((exC6.addObservation 9 0 0 false none).2 = none →
      (exC6.addObservation 9 0 0 false none).1.last_observation
        = some ⟨9, 0, 0, false, none⟩) ∧
    (∀ e, (exC6.addObservation 9 0 0 false none).2 = some e →
      (exC6.addObservation 9 0 0 false none).1.last_observation
        = exC6.last_observation)) :=
  C6_pending_observation exC6 9 0 0 false none

/-! ### Folding `add_observation` over a list of observations (C8, C9, C10) -/

/-- One `add_observation` call, keeping the post-call object state (the
caller-facing tuple's first component). -/
def addObs1 (r : PrioritizedReplay S A I) (w : Obs5 S A I) : PrioritizedReplay S A I :=
  (r.addObservation w.state w.action w.reward w.terminal w.internal).1

/-- A sequence of `add_observation` calls, left to right. -/
def foldAdd (r : PrioritizedReplay S A I) (ws : List (Obs5 S A I)) : PrioritizedReplay S A I :=
  ws.foldl addObs1 r

theorem addObs1_config_none {S A I : Type} (r : PrioritizedReplay S A I) (w : Obs5 S A I)
    (hcfg : r.internals_config = none) (hint : w.internal = none) :
    (addObs1 r w).internals_config = none := by
  unfold addObs1 PrioritizedReplay.addObservation
  rw [hcfg, hint]
  rcases hlo : r.last_observation with _ | lo
  · rfl
  · by_cases hf : r.observations.isFull = true
    · by_cases hn : r.none_priority_index ≤ 0
      · simp only [hf, if_true, if_pos hn]
      · simp only [hf, if_true, if_neg hn]
    · have hf' : r.observations.isFull = false := by
        cases hb : r.observations.isFull
        · rfl
        · exact absurd hb hf
      simp only [hf', Bool.false_eq_true, if_false]

/-- **C10**: if no `add_observation` call ever supplied a non-`None` internal
list, `internals_config` is still `None`, and then any `get_batch` call fails
up front with an (uncaught) `TypeError` — raised while building the
internal-state output arrays by iterating `self.internals_config` — rather
than returning a batch or a `TensorForceError`; the state is untouched. -/
theorem C10_get_batch_type_error {S A I : Type} :
    (∀ (c w : ℕ) (ws : List (Obs5 S A I)), (∀ wobs ∈ ws, wobs.internal = none) →
      (foldAdd (PrioritizedReplay.initReplay S A I c w) ws).internals_config = none) ∧
    (∀ (r : PrioritizedReplay S A I) (b : ℕ) (ps : List ℚ) (shuffle : List ℕ → List ℕ),
      r.internals_config = none →
      r.getBatch b ps shuffle = (r, .error .typeError)) := by
  constructor
  · intro c w ws hws
    have hgen : ∀ (ws : List (Obs5 S A I)) (r : PrioritizedReplay S A I),
        r.internals_config = none → (∀ wobs ∈ ws, wobs.internal = none) →
        (foldAdd r ws).internals_config = none := by
      intro ws
      induction ws with
      | nil => intro r h _; exact h
      | cons wh rest ih =>
          intro r h hall
          rw [foldAdd, List.foldl_cons]
          exact ih _ (addObs1_config_none r wh h (hall wh (List.mem_cons_self wh rest)))
            (fun q hq => hall q (List.mem_cons_of_mem _ hq))
    exact hgen ws _ rfl hws
  · intro r b ps shuffle hcfg
    unfold PrioritizedReplay.getBatch
    rw [hcfg]

/-- Witness for C10: an all-`None`-internals fold leaves the configuration
unset and the subsequent `get_batch` raises the `TypeError`. -/
theorem C10_get_batch_type_error_witness :
    ((∀ wobs ∈ [(⟨1, 2, 0, false, none⟩ : Obs5 ℕ ℕ ℕ), ⟨3, 4, 0, false, none⟩],
        wobs.internal = none) ∧
      (foldAdd (PrioritizedReplay.initReplay ℕ ℕ ℕ 2 1)
        [⟨1, 2, 0, false, none⟩, ⟨3, 4, 0, false, none⟩]).internals_config = none) ∧
    ((PrioritizedReplay.initReplay ℕ ℕ ℕ 2 1).internals_config = none ∧
      (PrioritizedReplay.initReplay ℕ ℕ ℕ 2 1).getBatch 3 [] (fun l => l)
        = (PrioritizedReplay.initReplay ℕ ℕ ℕ 2 1, .error .typeError)) :=
  ⟨⟨by decide,
    C10_get_batch_type_error.1 2 1 [⟨1, 2, 0, false, none⟩, ⟨3, 4, 0, false, none⟩]
      (by decide)⟩,
   ⟨rfl, C10_get_batch_type_error.2 (PrioritizedReplay.initReplay ℕ ℕ ℕ 2 1) 3 []
      (fun l => l) rfl⟩⟩

/-! ### The single-sample descent (C7) -/

theorem leftP_eq_nodeVal {α : Type} {m : List (Cell α)} {c left : ℕ}
    (hnum : left < c - 1 → (m.getD left .pyNone).isNum = true)
    (hrow : c - 1 ≤ left → (m.getD left .pyNone).isRow = true) :
    SumTree.leftP m c left = nodeVal m left := by
  unfold SumTree.leftP nodeVal
  by_cases h : left < c - 1
  · rw [if_pos h]
    obtain ⟨v, hv⟩ := isNum_iff.1 (hnum h)
    rw [hv]
    rfl
  · rw [if_neg h]
    obtain ⟨sr, hsr⟩ := isRow_iff.1 (hrow (by omega))
    rw [hsr]
    rfl

/-- On a full tree the descent always terminates at a leaf index and never
raises: every internal node has both children in range, and the loop exits
exactly when it reaches the leaf region. -/
theorem sampleGo_full_terminates {α : Type} (m : List (Cell α)) (c : ℕ) (hc : 1 ≤ c)
    (hfull : m.length = 2 * c - 1) :
    ∀ fuel parent p, m.length - parent ≤ fuel → parent < m.length →
      ∃ li, SumTree.sampleGo m c fuel p parent = .ok li ∧ c - 1 ≤ li ∧ li < m.length := by
  intro fuel
  induction fuel with
  | zero => intro parent p hfu hp; omega
  | succ fuel ih =>
      intro parent p hfu hp
      by_cases h1 : m.length ≤ 2 * parent + 1
      · refine ⟨parent, ?_, by omega, hp⟩
        simp only [SumTree.sampleGo, if_pos h1]
      · have h2 : 2 * parent + 2 < m.length := by omega
        by_cases hcmp : p ≤ SumTree.leftP m c (2 * parent + 1)
        · obtain ⟨li, hres, hge, hlt⟩ := ih (2 * parent + 1) p (by omega) (by omega)
          refine ⟨li, ?_, hge, hlt⟩
          simp only [SumTree.sampleGo, if_neg h1, if_pos hcmp]
          exact hres
        · obtain ⟨li, hres, hge, hlt⟩ :=
            ih (2 * parent + 2) (p - SumTree.leftP m c (2 * parent + 1)) (by omega) (by omega)
          refine ⟨li, ?_, hge, hlt⟩
          simp only [SumTree.sampleGo, if_neg h1, if_neg hcmp,
            if_neg (show ¬ m.length ≤ 2 * parent + 1 + 1 by omega)]
          exact hres

/-- The leaf reached from `i` by always descending to the right child while
one exists. -/
def rightGo (len : ℕ) : ℕ → ℕ → ℕ
  | 0, i => i
  | fuel + 1, i => if 2 * i + 2 < len then rightGo len fuel (2 * i + 2) else i

/-- On a full consistent tree with non-negative node values, a target
strictly above the subtree sum at `parent` makes the descent take the right
branch at every step, ending at the rightmost reachable leaf. -/
theorem sampleGo_overshoot {α : Type} (m : List (Cell α)) (c : ℕ) (hc : 1 ≤ c)
    (hfull : m.length = 2 * c - 1)
    (hnums : ∀ i, i < c - 1 → (m.getD i .pyNone).isNum = true)
    (hrows : ∀ i, c - 1 ≤ i → i < m.length → (m.getD i .pyNone).isRow = true)
    (hcons : ConsistentM m c)
    (hpos : ∀ n, 0 ≤ nodeVal m n) :
    ∀ fuel parent p, parent < m.length → nodeVal m parent < p →
      SumTree.sampleGo m c fuel p parent = .ok (rightGo m.length fuel parent) := by
  intro fuel
  induction fuel with
  | zero => intro parent p _ _; rfl
  | succ fuel ih =>
      intro parent p hp hover
      by_cases h1 : m.length ≤ 2 * parent + 1
      · simp only [SumTree.sampleGo, rightGo, if_pos h1,
          if_neg (show ¬ 2 * parent + 2 < m.length by omega)]
      · have hpar : parent < c - 1 := by omega
        have h2 : 2 * parent + 2 < m.length := by omega
        have hlp : SumTree.leftP m c (2 * parent + 1) = nodeVal m (2 * parent + 1) :=
          leftP_eq_nodeVal (fun h => hnums _ h) (fun h => hrows _ h (by omega))
        have hsum := hcons parent hpar
        have hrpos := hpos (2 * parent + 2)
        have hnle : ¬ p ≤ SumTree.leftP m c (2 * parent + 1) := by
          rw [hlp]
          intro hle
          have : nodeVal m parent < nodeVal m (2 * parent + 1) := lt_of_lt_of_le hover hle
          linarith
        simp only [SumTree.sampleGo, rightGo, if_neg h1, if_neg hnle,
          if_neg (show ¬ m.length ≤ 2 * parent + 1 + 1 by omega), if_pos h2]
        exact ih (2 * parent + 2) (p - SumTree.leftP m c (2 * parent + 1)) (by omega)
          (by rw [hlp]; linarith)

/-- **C7** (amended): on a *full* tree the single-sample descent terminates
at a leaf index for every target and never raises; moreover, on a full
consistent tree with non-negative node values, any target exceeding the root
sum resolves deterministically to the rightmost leaf (the leaf reached by
always descending right).  (On a partially filled tree the claim fails:
see the counterexample, where the descent raises
`RuntimeError('Right child is expected to exist.')`.) -/
theorem C7_sample_descent {α : Type} (t : SumTree α) (p : ℚ) (hwf : t.WF)
    (hfull : t.memory.length = 2 * t.capacity - 1) :
    (∃ li, t.sampleWithPriority p = .ok li ∧
      t.capacity - 1 ≤ li ∧ li < t.memory.length) ∧
    (t.Consistent → (∀ n, 0 ≤ nodeVal t.memory n) → nodeVal t.memory 0 < p →
      t.sampleWithPriority p = .ok (rightGo t.memory.length t.memory.length 0)) := by
  obtain ⟨hcap, hlow, hhigh, hposlt, hlink, hcells⟩ := hwf
  have hlen0 : 0 < t.memory.length := by omega
  constructor
  · exact sampleGo_full_terminates t.memory t.capacity hcap hfull t.memory.length 0 p
      (by omega) hlen0
  · intro hcons hpos hover
    exact sampleGo_overshoot t.memory t.capacity hcap hfull
      (fun i hi => (hcells i (by omega)).1 hi)
      (fun i hi hilt => (hcells i hilt).2 hi)
      hcons hpos t.memory.length 0 p hlen0 hover

/-- A partially filled capacity-5 tree holding two scored leaves. -/
def exC7 : SumTree ℕ := ((SumTree.init ℕ 5).put 10 (some 1)).put 20 (some 1)

/-- Counterexample to C7 as stated: on this partially filled tree the
descent for target `3` (which exceeds the root sum `2`) raises
`RuntimeError('Right child is expected to exist.')` instead of resolving to
the rightmost valid leaf. -/
theorem C7_sample_descent_counterexample :
    exC7.sampleWithPriority 3 = .error .runtimeError := by
  norm_num [exC7, SumTree.init, SumTree.put, SumTree.isFull, SumTree.len,
    SumTree.nextPositionThenIncrement, SumTree.oldPriorityAt, updateInternalNodes, updateGo,
    bumpAt, SumTree.sampleWithPriority, SumTree.sampleGo, SumTree.leftP, List.set,
    List.getD, List.get?]

/-- A full two-leaf tree with consistent sums. -/
def exC7full : SumTree ℕ :=
  ⟨2, [Cell.num 3, Cell.row ⟨10, some 1⟩, Cell.row ⟨20, some 2⟩], 0⟩

/-- Witness for the amended C7 on a concrete full tree with overshooting
target `7 > 3`. -/
theorem C7_sample_descent_witness :
    (exC7full.WF) ∧ (exC7full.memory.length = 2 * exC7full.capacity - 1) ∧
    ((∃ li, exC7full.sampleWithPriority 7 = .ok li ∧
      exC7full.capacity - 1 ≤ li ∧ li < exC7full.memory.length) ∧
    (exC7full.Consistent → (∀ n, 0 ≤ nodeVal exC7full.memory n) →
      nodeVal exC7full.memory 0 < 7 →
      exC7full.sampleWithPriority 7
        = .ok (rightGo exC7full.memory.length exC7full.memory.length 0))) :=
  ⟨by decide, by decide, C7_sample_descent exC7full 7 (by decide) (by decide)⟩

/-! ### Transitions formed by consecutive observations -/

/-- The completed transitions produced by a sequence of `add_observation`
calls: consecutive observations are paired, the later one supplying the
next-state fields. -/
def transOf : List (Obs5 S A I) → List (Transition S A I)
  | [] => []
  | [_] => []
  | a :: b :: rest => mkTrans a b.state b.internal :: transOf (b :: rest)

theorem transOf_length : ∀ ws : List (Obs5 S A I), (transOf ws).length = ws.length - 1 := by
  intro ws
  induction ws with
  | nil => rfl
  | cons a rest ih =>
      cases rest with
      | nil => rfl
      | cons b t =>
          show (mkTrans a b.state b.internal :: transOf (b :: t)).length = _
          rw [List.length_cons, ih]
          simp

theorem addObs1_first {S A I : Type} (c wgt : ℕ) (w0 : Obs5 S A I) (il : List I)
    (hint : w0.internal = some il) :
    addObs1 (PrioritizedReplay.initReplay S A I c wgt) w0
      = ⟨wgt, some il, none, SumTree.init (Transition S A I) c, 0, some w0⟩ := by
  simp only [addObs1, PrioritizedReplay.addObservation, PrioritizedReplay.initReplay, hint]
  rw [← hint]
  try rfl

theorem addObs1_step {S A I : Type} (r : PrioritizedReplay S A I) (wh lw : Obs5 S A I)
    (il : List I) (hlo : r.last_observation = some lw)
    (hcfg : r.internals_config = some il)
    (hnotfull : r.observations.isFull = false) :
    addObs1 r wh = ⟨r.prioritization_weight, some il, r.batch_indices,
      r.observations.put (mkTrans lw wh.state wh.internal) none,
      r.none_priority_index,
      some ⟨wh.state, wh.action, wh.reward, wh.terminal, wh.internal⟩⟩ := by
  unfold addObs1 PrioritizedReplay.addObservation
  simp only [hcfg, hlo, hnotfull, Bool.false_eq_true, if_false]

/-- The replay state reached by a run of `add_observation` calls that never
fills the tree: the tree is the unset-priority insert sequence of the paired
transitions, the boundary counter stays `0`, and the bookkeeping fields are
untouched. -/
theorem foldAdd_R {S A I : Type} (c : ℕ) (hc : 1 ≤ c) (wgt : ℕ) (il : List I) :
    ∀ (ws : List (Obs5 S A I)) (r : PrioritizedReplay S A I)
      (T : List (Transition S A I)) (lw : Obs5 S A I),
      r.prioritization_weight = wgt → r.internals_config = some il →
      r.batch_indices = none → r.none_priority_index = 0 →
      r.last_observation = some lw →
      r.observations = putSeqNone (SumTree.init (Transition S A I) c) T →
      T.length + ws.length ≤ c →
      (foldAdd r ws).prioritization_weight = wgt ∧
      (foldAdd r ws).internals_config = some il ∧
      (foldAdd r ws).batch_indices = none ∧
      (foldAdd r ws).none_priority_index = 0 ∧
      (foldAdd r ws).observations
        = putSeqNone (SumTree.init (Transition S A I) c) (T ++ transOf (lw :: ws)) := by
  intro ws
  induction ws with
  | nil =>
      intro r T lw h1 h2 h3 h4 h5 h6 _
      refine ⟨h1, h2, h3, h4, ?_⟩
      show r.observations = _
      rw [h6]
      show _ = putSeqNone _ (T ++ [])
      rw [List.append_nil]
  | cons wh rest ih =>
      intro r T lw h1 h2 h3 h4 h5 h6 hside
      obtain ⟨hcap, hlen, hpos, _, _, _⟩ := putSeqNone_state c hc T
      have hTlt : T.length < c := by
        simp only [List.length_cons] at hside
        omega
      have hnotfull : r.observations.isFull = false := by
        rw [h6]
        unfold SumTree.isFull SumTree.len
        rw [hlen, hcap, beq_eq_false_iff_ne]
        omega
      have hstep := addObs1_step r wh lw il h5 h2 hnotfull
      have hside2 : (T ++ [mkTrans lw wh.state wh.internal]).length + rest.length ≤ c := by
        rw [List.length_append]
        simp only [List.length_singleton, List.length_cons, List.length_nil] at hside ⊢
        omega
      have hobs2 : (addObs1 r wh).observations
          = putSeqNone (SumTree.init (Transition S A I) c)
              (T ++ [mkTrans lw wh.state wh.internal]) := by
        rw [hstep]
        show r.observations.put (mkTrans lw wh.state wh.internal) none = _
        rw [putSeqNone_append_one, h6]
      have hres := ih (addObs1 r wh) (T ++ [mkTrans lw wh.state wh.internal]) wh
        (by rw [hstep]; exact h1) (by rw [hstep]) (by rw [hstep]; exact h3)
        (by rw [hstep]; exact h4) (by rw [hstep]) hobs2 hside2
      obtain ⟨g1, g2, g3, g4, g5⟩ := hres
      have hT : T ++ transOf (lw :: wh :: rest)
          = (T ++ [mkTrans lw wh.state wh.internal]) ++ transOf (wh :: rest) := by
        have h0 : transOf (lw :: wh :: rest)
            = mkTrans lw wh.state wh.internal :: transOf (wh :: rest) := rfl
        rw [h0, List.append_assoc, List.singleton_append]
      refine ⟨g1, g2, g3, g4, ?_⟩
      show (foldAdd (addObs1 r wh) rest).observations
          = putSeqNone (SumTree.init (Transition S A I) c) (T ++ transOf (lw :: wh :: rest))
      rw [hT]
      exact g5

/-! ### Evaluating `get_batch` on its two phases -/

theorem take_range' : ∀ (n : ℕ) (s b : ℕ), (List.range' s n).take b = List.range' s (min b n) := by
  intro n
  induction n with
  | zero => intro s b; simp
  | succ n ih =>
      intro s b
      cases b with
      | zero => simp
      | succ b =>
          rw [List.range'_succ, List.take_succ_cons, ih]
          have h : min (b + 1) (n + 1) = min b n + 1 := by omega
          rw [h, List.range'_succ]

theorem except_match_pair {P E B : Type} (st : P) (res : Except E B) :
    (match res with
     | .ok obs => (st, Except.ok obs)
     | .error e => (st, Except.error e)) = (st, res) := by
  cases res <;> rfl

theorem get?_of_getD {α : Type} {m : List (Cell α)} {i : ℕ} {cl : Cell α}
    (h : m.getD i .pyNone = cl) (hi : i < m.length) : m.get? i = some cl := by
  rw [List.get?_eq_getElem?]
  rcases hx : m[i]? with _ | v
  · rw [List.getElem?_eq_none_iff] at hx
    omega
  · rw [List.getD_eq_getElem?_getD, hx] at h
    exact congrArg some h

theorem fetchRows_cons {α : Type} (m : List (Cell α)) (i : ℕ) (rest : List ℕ)
    {sr : SumRow α} (hsr : m.get? i = some (.row sr)) :
    PrioritizedReplay.fetchRows m (i :: rest)
      = (PrioritizedReplay.fetchRows m rest).map (fun l => sr.item :: l) := by
  unfold PrioritizedReplay.fetchRows
  rw [List.mapM_cons, hsr]
  cases hres : rest.mapM (fun i => match m.get? i with
      | some (.row sr) => Except.ok sr.item
      | some _ => Except.error PyErr.typeError
      | none => Except.error PyErr.indexError) with
  | error e => rfl
  | ok l => rfl

theorem fetchRows_ok_map {α : Type} (m : List (Cell α)) (f : ℕ → α) :
    ∀ idxs : List ℕ,
      (∀ i ∈ idxs, ∃ sr : SumRow α, m.get? i = some (.row sr) ∧ sr.item = f i) →
      PrioritizedReplay.fetchRows m idxs = .ok (idxs.map f) := by
  intro idxs
  induction idxs with
  | nil => intro _; rfl
  | cons i rest ih =>
      intro h
      obtain ⟨sr, hsr, hitem⟩ := h i (List.mem_cons_self i rest)
      rw [fetchRows_cons m i rest hsr, ih (fun j hj => h j (List.mem_cons_of_mem i hj)),
        List.map_cons, hitem]
      rfl

/-- When the unseen segment can fill the whole batch, `get_batch` takes the
first `batch_size` unseen indices, shuffles them, stores them in
`batch_indices` and materializes those rows; no weighted sampling happens. -/
theorem getBatch_phase1_only {S A I : Type} (r : PrioritizedReplay S A I)
    (b m c : ℕ) (ps : List ℚ) (shuffle : List ℕ → List ℕ) (il : List I)
    (hcfg : r.internals_config = some il)
    (hcap : r.observations.capacity = c)
    (hlen : r.observations.len = m)
    (hnpi : r.none_priority_index = 0)
    (hb : b ≤ m) :
    r.getBatch b ps shuffle =
      (⟨r.prioritization_weight, r.internals_config,
        some (shuffle (List.range' (c - 1) b)), r.observations,
        r.none_priority_index, r.last_observation⟩,
       PrioritizedReplay.fetchRows r.observations.memory
         (shuffle (List.range' (c - 1) b))) := by
  have htoNat : r.none_priority_index.toNat = 0 := by rw [hnpi]; rfl
  have hrange : List.range' (r.none_priority_index.toNat + (r.observations.capacity - 1))
      (r.observations.len + (r.observations.capacity - 1)
        - (r.none_priority_index.toNat + (r.observations.capacity - 1)))
      = List.range' (c - 1) m := by
    rw [htoNat, hcap, hlen, Nat.zero_add]
    congr 1
    omega
  have htake : (List.range' (c - 1) m).take b = List.range' (c - 1) b := by
    rw [take_range', min_eq_left hb]
  simp only [PrioritizedReplay.getBatch, hcfg]
  rw [hrange, htake, List.length_range', Nat.sub_self, if_pos rfl]
  cases hf : PrioritizedReplay.fetchRows r.observations.memory
      (shuffle (List.range' (c - 1) b)) with
  | ok obs => rfl
  | error e => rfl

/-- When the unseen segment cannot fill the batch, `get_batch` keeps all
unseen indices, appends `remaining` weighted samples, shuffles, and
materializes; a sampling error aborts with `batch_indices` already set to the
unseen segment. -/
theorem getBatch_phase2 {S A I : Type} (r : PrioritizedReplay S A I)
    (b m c : ℕ) (ps : List ℚ) (shuffle : List ℕ → List ℕ) (il : List I)
    (hcfg : r.internals_config = some il)
    (hcap : r.observations.capacity = c)
    (hlen : r.observations.len = m)
    (hnpi : r.none_priority_index = 0)
    (hmb : m < b) :
    r.getBatch b ps shuffle =
      match r.observations.sampleMinibatch (b - m) ps with
      | .error e =>
          (⟨r.prioritization_weight, r.internals_config,
            some (List.range' (c - 1) m), r.observations,
            r.none_priority_index, r.last_observation⟩, .error e)
      | .ok samples =>
          (⟨r.prioritization_weight, r.internals_config,
            some (shuffle (List.range' (c - 1) m ++ samples.map (fun s => s.1))),
            r.observations, r.none_priority_index, r.last_observation⟩,
           PrioritizedReplay.fetchRows r.observations.memory
             (shuffle (List.range' (c - 1) m ++ samples.map (fun s => s.1)))) := by
  have htoNat : r.none_priority_index.toNat = 0 := by rw [hnpi]; rfl
  have hrange : List.range' (r.none_priority_index.toNat + (r.observations.capacity - 1))
      (r.observations.len + (r.observations.capacity - 1)
        - (r.none_priority_index.toNat + (r.observations.capacity - 1)))
      = List.range' (c - 1) m := by
    rw [htoNat, hcap, hlen, Nat.zero_add]
    congr 1
    omega
  have htake : (List.range' (c - 1) m).take b = List.range' (c - 1) m := by
    rw [take_range', min_eq_right (Nat.le_of_lt hmb)]
  simp only [PrioritizedReplay.getBatch, hcfg]
  rw [hrange, htake, List.length_range', if_neg (show ¬ (b - m = 0) by omega)]
  cases hs : r.observations.sampleMinibatch (b - m) ps with
  | error e => rfl
  | ok samples =>
      dsimp only []
      cases hf : PrioritizedReplay.fetchRows r.observations.memory
          (shuffle (List.range' (c - 1) m ++ samples.map (fun s => s.1))) with
      | ok obs => rfl
      | error e => rfl

/-! ### C8: a batch drawn entirely from the unseen segment -/

theorem getD_eq_getElem_of_lt {α : Type} (L : List α) (d : α) {j : ℕ} (hj : j < L.length) :
    L.getD j d = L.get ⟨j, hj⟩ := by
  rw [List.getD_eq_getElem?_getD, List.getElem?_eq_getElem hj]
  rfl

/-- C8: starting from a fresh replay memory, after any run of
`add_observation` calls that leaves every stored transition unscored
(`none_priority_index = 0`) with occupancy at least `batch_size`,
`get_batch(batch_size)` materializes exactly the `batch_size` oldest stored
transitions: `batch_indices` is the shuffled contiguous block of the first
`batch_size` unseen slots, and the returned batch is a permutation of the
oldest `batch_size` transitions, so membership is deterministic and only the
order is randomized by the shuffle. -/
theorem C8_zero_scored_oldest {S A I : Type} (c wgt b : ℕ) (il : List I)
    (w0 : Obs5 S A I) (rest : List (Obs5 S A I)) (ps : List ℚ)
    (shuffle : List ℕ → List ℕ)
    (hc : 1 ≤ c) (hrest : rest.length ≤ c) (hb : b ≤ rest.length)
    (hint : w0.internal = some il)
    (hperm : ∀ l : List ℕ, (shuffle l).Perm l) :
    ∃ fetched,
      ((foldAdd (PrioritizedReplay.initReplay S A I c wgt) (w0 :: rest)).getBatch b ps
          shuffle).2 = .ok fetched ∧
      fetched.Perm ((transOf (w0 :: rest)).take b) ∧
      ((foldAdd (PrioritizedReplay.initReplay S A I c wgt) (w0 :: rest)).getBatch b ps
          shuffle).1.batch_indices = some (shuffle (List.range' (c - 1) b)) := by
  have h1 := addObs1_first c wgt w0 il hint
  have hfold := foldAdd_R c hc wgt il rest
    (⟨wgt, some il, none, SumTree.init (Transition S A I) c, 0, some w0⟩ :
      PrioritizedReplay S A I) [] w0 rfl rfl rfl rfl rfl rfl
    (by simpa using hrest)
  obtain ⟨hw, hcfg, hbi, hnpi, hobs⟩ := hfold
  rw [List.nil_append] at hobs
  have hfoldeq : foldAdd (PrioritizedReplay.initReplay S A I c wgt) (w0 :: rest)
      = foldAdd (⟨wgt, some il, none, SumTree.init (Transition S A I) c, 0, some w0⟩ :
          PrioritizedReplay S A I) rest := by
    show foldAdd (addObs1 (PrioritizedReplay.initReplay S A I c wgt) w0) rest = _
    rw [h1]
  obtain ⟨hcap, hlenm, _, _, hleaf, _⟩ :=
    putSeqNone_state c hc (transOf (w0 :: (rest : List (Obs5 S A I))))
  have hTlen : (transOf (w0 :: rest)).length = rest.length := by
    rw [transOf_length]
    simp
  have hmin : min (transOf (w0 :: rest)).length c = rest.length := by
    rw [hTlen]
    omega
  have hlen2 : (foldAdd (⟨wgt, some il, none, SumTree.init (Transition S A I) c, 0,
      some w0⟩ : PrioritizedReplay S A I) rest).observations.len = rest.length := by
    unfold SumTree.len
    rw [hobs, hlenm, hcap, hmin]
    omega
  have hcapr : (foldAdd (⟨wgt, some il, none, SumTree.init (Transition S A I) c, 0,
      some w0⟩ : PrioritizedReplay S A I) rest).observations.capacity = c := by
    rw [hobs]
    exact hcap
  have hphase := getBatch_phase1_only _ b rest.length c ps shuffle il hcfg hcapr hlen2 hnpi hb
  have hrows : ∀ i ∈ shuffle (List.range' (c - 1) b),
      ∃ sr : SumRow (Transition S A I),
        (foldAdd (⟨wgt, some il, none, SumTree.init (Transition S A I) c, 0,
          some w0⟩ : PrioritizedReplay S A I) rest).observations.memory.get? i
            = some (.row sr) ∧
        sr.item = (transOf (w0 :: rest)).getD (i - (c - 1))
          (mkTrans w0 w0.state w0.internal) := by
    intro i hi
    have hi' : i ∈ List.range' (c - 1) b := ((hperm _).mem_iff).mp hi
    rw [List.mem_range'_1] at hi'
    obtain ⟨hi1, hi2⟩ := hi'
    obtain ⟨x, hx, hcell⟩ := hleaf (i - (c - 1)) (by rw [hmin]; omega)
    have hidx : (transOf (w0 :: rest)).length - 1
        - (((transOf (w0 :: rest)).length - 1 - (i - (c - 1))) % c) = i - (c - 1) := by
      rw [hTlen]
      rw [Nat.mod_eq_of_lt (by omega)]
      omega
    rw [hidx] at hx
    have hback : c - 1 + (i - (c - 1)) = i := by omega
    rw [hback] at hcell
    refine ⟨⟨x, none⟩, ?_, ?_⟩
    · rw [hobs]
      exact get?_of_getD hcell (by rw [hlenm, hmin]; omega)
    · show x = _
      rw [List.getD_eq_getElem?_getD, hx]
      rfl
  have hfetch := fetchRows_ok_map
    (foldAdd (⟨wgt, some il, none, SumTree.init (Transition S A I) c, 0,
      some w0⟩ : PrioritizedReplay S A I) rest).observations.memory
    (fun i => (transOf (w0 :: rest)).getD (i - (c - 1)) (mkTrans w0 w0.state w0.internal))
    (shuffle (List.range' (c - 1) b)) hrows
  refine ⟨(shuffle (List.range' (c - 1) b)).map
    (fun i => (transOf (w0 :: rest)).getD (i - (c - 1)) (mkTrans w0 w0.state w0.internal)),
    ?_, ?_, ?_⟩
  · rw [hfoldeq, hphase]
    exact hfetch
  · have hmapperm := (hperm (List.range' (c - 1) b)).map
      (fun i => (transOf (w0 :: rest)).getD (i - (c - 1)) (mkTrans w0 w0.state w0.internal))
    have hmapeq : (List.range' (c - 1) b).map
        (fun i => (transOf (w0 :: rest)).getD (i - (c - 1))
          (mkTrans w0 w0.state w0.internal))
        = (transOf (w0 :: rest)).take b := by
      apply List.ext_getElem?
      intro k
      rw [List.getElem?_map, List.getElem?_take]
      rcases Nat.lt_or_ge k b with hk | hk
      · rw [if_pos hk, List.getElem?_range' (c - 1) 1 hk]
        have hkT : k < (transOf (w0 :: rest)).length := by omega
        rw [List.getElem?_eq_getElem hkT]
        show some ((transOf (w0 :: rest)).getD (c - 1 + 1 * k - (c - 1))
          (mkTrans w0 w0.state w0.internal)) = some ((transOf (w0 :: rest)).get ⟨k, hkT⟩)
        have harg : c - 1 + 1 * k - (c - 1) = k := by omega
        rw [harg, getD_eq_getElem_of_lt _ _ hkT]
      · rw [if_neg (by omega)]
        rw [List.getElem?_eq_none]
        · rfl
        · rw [List.length_range']
          omega
    rw [← hmapeq]
    exact hmapperm
  · rw [hfoldeq, hphase]

theorem C8_zero_scored_oldest_witness :
    ∃ fetched,
      ((foldAdd (PrioritizedReplay.initReplay ℕ ℕ ℕ 2 1)
          [⟨5, 0, 0, false, some []⟩, ⟨6, 1, 1, false, none⟩]).getBatch 1 [] (fun l => l)).2
        = .ok fetched ∧
      fetched.Perm ((transOf [(⟨5, 0, 0, false, some []⟩ : Obs5 ℕ ℕ ℕ),
        ⟨6, 1, 1, false, none⟩]).take 1) ∧
      ((foldAdd (PrioritizedReplay.initReplay ℕ ℕ ℕ 2 1)
          [⟨5, 0, 0, false, some []⟩, ⟨6, 1, 1, false, none⟩]).getBatch 1 []
            (fun l => l)).1.batch_indices
        = some ((fun l : List ℕ => l) (List.range' (2 - 1) 1)) :=
  C8_zero_scored_oldest 2 1 1 [] ⟨5, 0, 0, false, some []⟩ [⟨6, 1, 1, false, none⟩] []
    (fun l => l) (by decide) (by decide) (by decide) rfl (fun l => List.Perm.refl l)

/-! ### C9: batches larger than the occupancy -/

theorem mapM_ok_of_forall {β γ : Type} (g : β → Except PyErr γ) :
    ∀ l : List β, (∀ i ∈ l, ∃ y, g i = .ok y) →
      ∃ out, l.mapM g = .ok out ∧ List.Forall₂ (fun i y => g i = .ok y) l out := by
  intro l
  induction l with
  | nil => intro _; exact ⟨[], rfl, List.Forall₂.nil⟩
  | cons i rest ih =>
      intro h
      obtain ⟨y, hy⟩ := h i (List.mem_cons_self i rest)
      obtain ⟨out, hout, hF⟩ := ih (fun j hj => h j (List.mem_cons_of_mem i hj))
      refine ⟨y :: out, ?_, List.Forall₂.cons hy hF⟩
      rw [List.mapM_cons, hy, hout]
      rfl

theorem forall2_mem_right {β γ : Type} {R : β → γ → Prop} :
    ∀ {l : List β} {out : List γ}, List.Forall₂ R l out → ∀ y ∈ out, ∃ x ∈ l, R x y := by
  intro l out h
  induction h with
  | nil => intro y hy; simp at hy
  | cons hR hF ih =>
      intro y hy
      rcases List.mem_cons.mp hy with h1 | h2
      · subst h1
        exact ⟨_, List.mem_cons_self _ _, hR⟩
      · obtain ⟨x, hx, hxy⟩ := ih y h2
        exact ⟨x, List.mem_cons_of_mem _ hx, hxy⟩

/-- C9 (amended): starting from a fresh replay memory of capacity at least
2, after a run of `add_observation` calls that exactly fills the buffer with
unscored transitions, a `get_batch` request larger than the occupancy raises
no error and returns a batch of exactly `batch_size` entries — not of size
equal to the occupancy: the shortfall is filled by weighted sampling, which
revisits already-selected occupied slots, so the batch contains only stored
transitions (each stored transition appearing at least once) but with
duplicates rather than a smaller effective size.  (The full-buffer and
capacity bounds are needed: on a partially filled buffer the descent can
return an empty internal slot whose unpacking raises `TypeError`, and with
capacity 1 the `delta_p` division raises `TypeError` already inside
`sample_minibatch`.) -/
theorem C9_undersized_batch {S A I : Type} (c wgt b : ℕ) (il : List I)
    (w0 : Obs5 S A I) (rest : List (Obs5 S A I)) (ps : List ℚ)
    (shuffle : List ℕ → List ℕ)
    (hc : 2 ≤ c) (hrest : rest.length = c) (hb : c < b)
    (hint : w0.internal = some il)
    (hperm : ∀ l : List ℕ, (shuffle l).Perm l) :
    ∃ fetched,
      ((foldAdd (PrioritizedReplay.initReplay S A I c wgt) (w0 :: rest)).getBatch b ps
          shuffle).2 = .ok fetched ∧
      fetched.length = b ∧
      (∀ tr ∈ fetched, tr ∈ transOf (w0 :: rest)) ∧
      (∀ tr ∈ transOf (w0 :: rest), tr ∈ fetched) := by
  have h1 := addObs1_first c wgt w0 il hint
  have hfold := foldAdd_R c (by omega) wgt il rest
    (⟨wgt, some il, none, SumTree.init (Transition S A I) c, 0, some w0⟩ :
      PrioritizedReplay S A I) [] w0 rfl rfl rfl rfl rfl rfl
    (by simp only [List.length_nil]; omega)
  obtain ⟨hw, hcfg, hbi, hnpi, hobs⟩ := hfold
  rw [List.nil_append] at hobs
  have hfoldeq : foldAdd (PrioritizedReplay.initReplay S A I c wgt) (w0 :: rest)
      = foldAdd (⟨wgt, some il, none, SumTree.init (Transition S A I) c, 0, some w0⟩ :
          PrioritizedReplay S A I) rest := by
    show foldAdd (addObs1 (PrioritizedReplay.initReplay S A I c wgt) w0) rest = _
    rw [h1]
  obtain ⟨hcap, hlenm, _, hnums, hleaf, _⟩ :=
    putSeqNone_state c (by omega) (transOf (w0 :: (rest : List (Obs5 S A I))))
  have hTlen : (transOf (w0 :: rest)).length = c := by
    rw [transOf_length]
    simp [hrest]
  have hmin : min (transOf (w0 :: rest)).length c = c := by
    rw [hTlen]
    omega
  have hlen2 : (foldAdd (⟨wgt, some il, none, SumTree.init (Transition S A I) c, 0,
      some w0⟩ : PrioritizedReplay S A I) rest).observations.len = c := by
    unfold SumTree.len
    rw [hobs, hlenm, hcap, hmin]
    omega
  have hcapr : (foldAdd (⟨wgt, some il, none, SumTree.init (Transition S A I) c, 0,
      some w0⟩ : PrioritizedReplay S A I) rest).observations.capacity = c := by
    rw [hobs]
    exact hcap
  have hmemlen : (foldAdd (⟨wgt, some il, none, SumTree.init (Transition S A I) c, 0,
      some w0⟩ : PrioritizedReplay S A I) rest).observations.memory.length = 2 * c - 1 := by
    rw [hobs, hlenm, hmin]
    omega
  have hphase := getBatch_phase2 _ b c c ps shuffle il hcfg hcapr hlen2 hnpi hb
  have hterm := sampleGo_full_terminates
    (foldAdd (⟨wgt, some il, none, SumTree.init (Transition S A I) c, 0,
      some w0⟩ : PrioritizedReplay S A I) rest).observations.memory c (by omega) hmemlen
  obtain ⟨out, hout, hF⟩ := mapM_ok_of_forall
    (fun i => SumTree.sampleGo
      (foldAdd (⟨wgt, some il, none, SumTree.init (Transition S A I) c, 0,
        some w0⟩ : PrioritizedReplay S A I) rest).observations.memory
      (foldAdd (⟨wgt, some il, none, SumTree.init (Transition S A I) c, 0,
        some w0⟩ : PrioritizedReplay S A I) rest).observations.capacity
      (foldAdd (⟨wgt, some il, none, SumTree.init (Transition S A I) c, 0,
        some w0⟩ : PrioritizedReplay S A I) rest).observations.memory.length
      (ps.getD i 0) 0)
    (List.range (b - c))
    (fun i _ => by
      rw [hcapr]
      obtain ⟨li, hok, _, _⟩ := hterm
        (foldAdd (⟨wgt, some il, none, SumTree.init (Transition S A I) c, 0,
          some w0⟩ : PrioritizedReplay S A I) rest).observations.memory.length 0
        (ps.getD i 0) (by omega) (by rw [hmemlen]; omega)
      exact ⟨li, hok⟩)
  have hsm : (foldAdd (⟨wgt, some il, none, SumTree.init (Transition S A I) c, 0,
      some w0⟩ : PrioritizedReplay S A I) rest).observations.sampleMinibatch (b - c) ps
      = .ok (out.map (fun i => (i,
          (foldAdd (⟨wgt, some il, none, SumTree.init (Transition S A I) c, 0,
            some w0⟩ : PrioritizedReplay S A I) rest).observations.memory.getD i
              Cell.pyNone))) := by
    obtain ⟨v0, hv0, _⟩ := hnums 0 (by omega)
    have hnum0 : (foldAdd (⟨wgt, some il, none, SumTree.init (Transition S A I) c, 0,
        some w0⟩ : PrioritizedReplay S A I) rest).observations.memory.getD 0 Cell.pyNone
        = Cell.num v0 := by
      rw [hobs]
      exact hv0
    unfold SumTree.sampleMinibatch
    rw [if_neg (by rw [hlen2]; omega), hnum0]
    dsimp only []
    rw [if_neg (show ¬ (b - c = 0) by omega), hout]
    rfl
  rw [hsm] at hphase
  dsimp only [] at hphase
  have hfst : ∀ L : List ℕ,
      (L.map (fun i => (i,
        (foldAdd (⟨wgt, some il, none, SumTree.init (Transition S A I) c, 0,
          some w0⟩ : PrioritizedReplay S A I) rest).observations.memory.getD i
            Cell.pyNone))).map
        (fun s : ℕ × Cell (Transition S A I) => s.1) = L := by
    intro L
    induction L with
    | nil => rfl
    | cons a t ih =>
        simp only [List.map_cons]
        rw [ih]
  rw [hfst] at hphase
  have hleafrange : ∀ i ∈ List.range' (c - 1) c ++ out, c - 1 ≤ i ∧ i < 2 * c - 1 := by
    intro i hi
    rcases List.mem_append.mp hi with h | h
    · rw [List.mem_range'_1] at h
      omega
    · obtain ⟨i0, _, hok⟩ := forall2_mem_right hF i h
      obtain ⟨li, hok2, hge, hlt⟩ := hterm
        (foldAdd (⟨wgt, some il, none, SumTree.init (Transition S A I) c, 0,
          some w0⟩ : PrioritizedReplay S A I) rest).observations.memory.length 0
        (ps.getD i0 0) (by omega) (by rw [hmemlen]; omega)
      rw [hcapr] at hok
      have hil : i = li := by
        have h12 := hok.symm.trans hok2
        injection h12
      rw [hmemlen] at hlt
      omega
  have hrows : ∀ i ∈ shuffle (List.range' (c - 1) c ++ out),
      ∃ sr : SumRow (Transition S A I),
        (foldAdd (⟨wgt, some il, none, SumTree.init (Transition S A I) c, 0,
          some w0⟩ : PrioritizedReplay S A I) rest).observations.memory.get? i
            = some (.row sr) ∧
        sr.item = (transOf (w0 :: rest)).getD (i - (c - 1))
          (mkTrans w0 w0.state w0.internal) := by
    intro i hi
    obtain ⟨hi1, hi2⟩ := hleafrange i (((hperm _).mem_iff).mp hi)
    obtain ⟨x, hx, hcell⟩ := hleaf (i - (c - 1)) (by rw [hmin]; omega)
    have hidx : (transOf (w0 :: rest)).length - 1
        - (((transOf (w0 :: rest)).length - 1 - (i - (c - 1))) % c) = i - (c - 1) := by
      rw [hTlen]
      rw [Nat.mod_eq_of_lt (by omega)]
      omega
    rw [hidx] at hx
    have hback : c - 1 + (i - (c - 1)) = i := by omega
    rw [hback] at hcell
    refine ⟨⟨x, none⟩, ?_, ?_⟩
    · rw [hobs]
      exact get?_of_getD hcell (by rw [hlenm, hmin]; omega)
    · show x = _
      rw [List.getD_eq_getElem?_getD, hx]
      rfl
  have hfetch := fetchRows_ok_map
    (foldAdd (⟨wgt, some il, none, SumTree.init (Transition S A I) c, 0,
      some w0⟩ : PrioritizedReplay S A I) rest).observations.memory
    (fun i => (transOf (w0 :: rest)).getD (i - (c - 1)) (mkTrans w0 w0.state w0.internal))
    (shuffle (List.range' (c - 1) c ++ out)) hrows
  refine ⟨(shuffle (List.range' (c - 1) c ++ out)).map
    (fun i => (transOf (w0 :: rest)).getD (i - (c - 1)) (mkTrans w0 w0.state w0.internal)),
    ?_, ?_, ?_, ?_⟩
  · rw [hfoldeq, hphase]
    exact hfetch
  · rw [List.length_map, (hperm _).length_eq, List.length_append, List.length_range']
    have hol := hF.length_eq
    rw [List.length_range] at hol
    omega
  · intro tr htr
    obtain ⟨i, hibi, hfi⟩ := List.mem_map.mp htr
    obtain ⟨hi1, hi2⟩ := hleafrange i (((hperm _).mem_iff).mp hibi)
    have hj : i - (c - 1) < (transOf (w0 :: rest)).length := by
      rw [hTlen]
      omega
    rw [← hfi]
    show (transOf (w0 :: rest)).getD (i - (c - 1)) (mkTrans w0 w0.state w0.internal)
      ∈ transOf (w0 :: rest)
    rw [getD_eq_getElem_of_lt _ _ hj]
    exact List.get_mem _ _ _
  · intro tr htr
    obtain ⟨j, hjlen, hget⟩ := List.mem_iff_getElem.mp htr
    have hjc : j < c := by
      rw [hTlen] at hjlen
      exact hjlen
    have hmemr : c - 1 + j ∈ List.range' (c - 1) c := by
      rw [List.mem_range'_1]
      omega
    have hmembi : c - 1 + j ∈ shuffle (List.range' (c - 1) c ++ out) :=
      ((hperm _).mem_iff).mpr (List.mem_append.mpr (Or.inl hmemr))
    have hval : (transOf (w0 :: rest)).getD (c - 1 + j - (c - 1))
        (mkTrans w0 w0.state w0.internal) = tr := by
      have harg : c - 1 + j - (c - 1) = j := by omega
      rw [harg, getD_eq_getElem_of_lt _ _ hjlen]
      exact hget
    rw [← hval]
    exact List.mem_map_of_mem _ hmembi

/-- A replay memory of capacity 2 filled by three `add_observation` calls:
occupancy 2, both stored transitions unscored. -/
def exC9 : PrioritizedReplay ℕ ℕ ℕ :=
  foldAdd (PrioritizedReplay.initReplay ℕ ℕ ℕ 2 1)
    [⟨10, 0, 0, false, some []⟩, ⟨11, 0, 0, false, none⟩, ⟨12, 0, 0, false, none⟩]

/-- C9 counterexample: with occupancy 2 and `batch_size` 3, `get_batch`
raises no error but returns a batch of 3 entries, not of size equal to the
occupancy: the third entry is a duplicate of an occupied slot chosen by
weighted sampling (`batch_indices = [1, 2, 1]`), so the effective batch size
does not equal the occupancy. -/
theorem C9_undersized_batch_counterexample :
    exC9.observations.len = 2 ∧
    (exC9.getBatch 3 [0] (fun l => l)).2.map List.length = Except.ok 3 ∧
    (exC9.getBatch 3 [0] (fun l => l)).1.batch_indices = some [1, 2, 1] := by
  decide

theorem C9_undersized_batch_witness :
    ∃ fetched,
      ((foldAdd (PrioritizedReplay.initReplay ℕ ℕ ℕ 2 1)
          [⟨5, 0, 0, false, some []⟩, ⟨6, 1, 1, false, none⟩,
            ⟨7, 2, 2, false, none⟩]).getBatch 3 [0] (fun l => l)).2 = .ok fetched ∧
      fetched.length = 3 ∧
      (∀ tr ∈ fetched, tr ∈ transOf [(⟨5, 0, 0, false, some []⟩ : Obs5 ℕ ℕ ℕ),
        ⟨6, 1, 1, false, none⟩, ⟨7, 2, 2, false, none⟩]) ∧
      (∀ tr ∈ transOf [(⟨5, 0, 0, false, some []⟩ : Obs5 ℕ ℕ ℕ),
        ⟨6, 1, 1, false, none⟩, ⟨7, 2, 2, false, none⟩], tr ∈ fetched) :=
  C9_undersized_batch 2 1 3 [] ⟨5, 0, 0, false, some []⟩
    [⟨6, 1, 1, false, none⟩, ⟨7, 2, 2, false, none⟩] [0]
    (fun l => l) (by decide) (by decide) (by decide) rfl (fun l => List.Perm.refl l)
